import Mathlib

/-!
Shallow embedding of `src/src/encrypted_fs.rs` (the `EncryptedFs` engine).

Modelling conventions, chosen to mirror the source:
* Host files are identified by a numeric file id (`fid`); `St.files` maps a
  fid to its decrypted byte content (bytes are `Nat`).  Open cipher streams
  keep the fid they were opened on, so a stream opened before a
  `fs::rename` keeps reading the old file, while in-place writes through
  another stream become visible — the Unix file-descriptor semantics the
  source relies on.
* The crypto layer (`crypto_util`, declared in the source as
  `pub mod crypto_util;` but not part of `src/`) is modelled from the spec:
  `make_encryptor`/`make_decryptor` form an inverse pair over any byte
  sequence and filename encryption is deterministic and injective, so file
  contents are stored as plaintext and encrypted names as the plain name
  strings.  An encryptor buffers the plaintext written to it; `finish`
  overwrites the sink file from the start without truncating
  (`commitFile`), matching a deterministic stream cipher over a file opened
  without `truncate`.
* Wall-clock reads (`SystemTime::now()`) are modelled by a `now : Nat`
  parameter; all reads of the clock within one operation yield `now`.
* The random inode allocator `generate_next_inode` is modelled by a
  `newIno` parameter constrained by the allocator's postcondition
  (`newIno > ROOT_INODE` and not live).
* `FsError` keeps the constructors of the source enum; payload strings are
  dropped.  A library `unwrap()` on an `Err`/`None` (a panic in the source)
  is modelled as `FsError.otherErr`.
* Loops in the source are modelled with explicit fuel; a result of `none`
  means the loop ran forever (no fuel value suffices).
-/

namespace EncFs

/-- `fuser::FileType` restricted as the source treats it: the two supported
kinds plus a stand-in for every other variant (rejected by `create_nod`). -/
inductive FType
  | directory
  | regularFile
  | other
deriving DecidableEq, Repr

/-- `fuser::FileAttr`: times are modelled as `Nat` instants. -/
structure FileAttr where
  ino : Nat
  size : Nat
  blocks : Nat
  atime : Nat
  mtime : Nat
  ctime : Nat
  crtime : Nat
  kind : FType
  perm : Nat
  nlink : Nat
  uid : Nat
  gid : Nat
  rdev : Nat
  blksize : Nat
  flags : Nat
deriving DecidableEq, Repr

/-- The `FsError` enum of the source (payload strings dropped).
`otherErr` additionally stands for a panicking `unwrap()` in the source. -/
inductive FsError
  | ioErr
  | serializeErr
  | notFound
  | inodeNotFound
  | invalidInput
  | invalidInodeType
  | invalidFileHandle
  | alreadyExists
  | notEmpty
  | otherErr
  | encryption
deriving DecidableEq, Repr

/-- Directory contents on disk: one entry file per name, holding the
serialized `(child_ino, kind)` tuple. -/
abbrev Entries := List (String × Nat × FType)

/-- Look up the entry file named `k` in a directory. -/
def lookupE (es : Entries) (k : String) : Option (Nat × FType) :=
  match es with
  | [] => none
  | (k', v) :: rest => if k' = k then some v else lookupE rest k

/-- `insert_directory_entry`: truncate-open of the entry file, i.e. replace
the value if the name is present, otherwise add the entry. -/
def upsertE (es : Entries) (k : String) (v : Nat × FType) : Entries :=
  match es with
  | [] => [(k, v)]
  | (k', v') :: rest => if k' = k then (k, v) :: rest else (k', v') :: upsertE rest k v

/-- `fs::remove_file` of an entry file: drop the entry named `k`. -/
def eraseE (es : Entries) (k : String) : Entries :=
  match es with
  | [] => []
  | (k', v') :: rest => if k' = k then rest else (k', v') :: eraseE rest k

/-- The object stored at `contents/<ino>`: an encrypted regular file
(identified by its fid) or a directory of entry files. -/
inductive ContentObj
  | file (fid : Nat)
  | dir (es : Entries)
deriving DecidableEq, Repr

/-- A read handle: `(FileAttr, u64, read::Decryptor<File>)` — cached
attributes, plaintext position already consumed, and the fid the decryptor's
`File` was opened on. -/
structure RH where
  attr : FileAttr
  pos : Nat
  fid : Nat
deriving DecidableEq, Repr

/-- A write handle: `(FileAttr, PathBuf, u64, write::Encryptor<File>)` —
cached attributes, whether the sink path ends in `.tmp`, plaintext position,
the plaintext buffered in the encryptor, and the fid of the sink file. -/
structure WH where
  attr : FileAttr
  tmpSink : Bool
  pos : Nat
  buf : List Nat
  sinkFid : Nat
deriving DecidableEq, Repr

/-- Association-list lookup for the handle tables (`BTreeMap<u64, _>`). -/
def alookup {α : Type} (l : List (Nat × α)) (k : Nat) : Option α :=
  match l with
  | [] => none
  | (k', v) :: rest => if k' = k then some v else alookup rest k

/-- `BTreeMap::insert`. -/
def aupsert {α : Type} (l : List (Nat × α)) (k : Nat) (v : α) : List (Nat × α) :=
  match l with
  | [] => [(k, v)]
  | (k', v') :: rest => if k' = k then (k, v) :: rest else (k', v') :: aupsert rest k v

/-- `BTreeMap::remove`. -/
def aerase {α : Type} (l : List (Nat × α)) (k : Nat) : List (Nat × α) :=
  match l with
  | [] => []
  | (k', v') :: rest => if k' = k then rest else (k', v') :: aerase rest k

/-- Engine state: the data directory plus the in-memory handle tables of
`EncryptedFs`.  `parentOf` is a specification ghost recording, for each
directory inode, the parent passed at creation and updated by `rename`; the
source keeps this information only inside the `$..` entry files. -/
structure St where
  inodes : Nat → Option FileAttr
  contents : Nat → Option ContentObj
  files : Nat → Option (List Nat)
  nextFid : Nat
  readHandles : List (Nat × RH)
  writeHandles : List (Nat × WH)
  nextHandle : Nat
  parentOf : Nat → Option Nat

/-- Point update of a function-backed map. -/
def upd {α : Type} (m : Nat → Option α) (k : Nat) (v : Option α) : Nat → Option α :=
  fun i => if i = k then v else m i

/-- `node_exists`: `inodes/<ino>` is a file. -/
def nodeExists (s : St) (ino : Nat) : Bool :=
  (s.inodes ino).isSome

/-- `is_dir`: `contents/<ino>` is a directory. -/
def isDir (s : St) (ino : Nat) : Bool :=
  match s.contents ino with
  | some (.dir _) => true
  | _ => false

/-- `is_file`: `contents/<ino>` is a file. -/
def isFile (s : St) (ino : Nat) : Bool :=
  match s.contents ino with
  | some (.file _) => true
  | _ => false

/-- `get_inode`: open and decrypt `inodes/<ino>`; a missing file is
`InodeNotFound`. -/
def getInode (s : St) (ino : Nat) : Except FsError FileAttr :=
  match s.inodes ino with
  | some a => .ok a
  | none => .error .inodeNotFound

/-- `write_inode`: truncate-open `inodes/<attr.ino>` and write the encrypted
serialization of `attr` (cannot fail in the model). -/
def writeInode (s : St) (a : FileAttr) : St :=
  { s with inodes := upd s.inodes a.ino (some a) }

/-- The `"." ↦ "$."` / `".." ↦ "$.."` mapping applied by `exists_by_name` and
`find_by_name` (and only by them). -/
def mapDots (name : String) : String :=
  if name = "." then "$." else if name = ".." then "$.." else name

/-- `exists_by_name`: the entry file for the (mapped, encrypted) name exists
under `contents/<parent>`.  If `contents/<parent>` is a regular file or
missing, the joined path exists for no name. -/
def existsByName (s : St) (parent : Nat) (name : String) : Bool :=
  match s.contents parent with
  | some (.dir es) => (lookupE es (mapDots name)).isSome
  | _ => false

/-- `find_by_name`. -/
def findByName (s : St) (parent : Nat) (name : String) : Except FsError (Option FileAttr) :=
  if ¬ nodeExists s parent then .error .inodeNotFound
  else if ¬ existsByName s parent name then .ok none
  else if ¬ isDir s parent then .error .invalidInodeType
  else
    match s.contents parent with
    | some (.dir es) =>
      match lookupE es (mapDots name) with
      | some (i, _) =>
        match s.inodes i with
        | some a => .ok (some a)
        | none => .error .inodeNotFound
      | none => .error .ioErr
    | _ => .error .ioErr

/-- `insert_directory_entry`: truncate-open the entry file named `entry.name`
(no dot mapping) under `contents/<parent>` and write `(ino, kind)`.  Opening
a path under a regular file or a missing object fails with an I/O error. -/
def insertDirectoryEntry (s : St) (parent : Nat) (name : String) (v : Nat × FType) :
    Except FsError St :=
  match s.contents parent with
  | some (.dir es) =>
    .ok { s with contents := upd s.contents parent (some (.dir (upsertE es name v))) }
  | _ => .error .ioErr

/-- `remove_directory_entry`: `fs::remove_file` of the entry file named
`name` (no dot mapping); removing a missing file is an I/O error. -/
def removeDirectoryEntry (s : St) (parent : Nat) (name : String) : Except FsError St :=
  match s.contents parent with
  | some (.dir es) =>
    match lookupE es name with
    | some _ => .ok { s with contents := upd s.contents parent (some (.dir (eraseE es name))) }
    | none => .error .ioErr
  | _ => .error .ioErr

/-- `children_count`: length of the `read_dir` listing of `contents/<ino>`. -/
def childrenCount (s : St) (ino : Nat) : Except FsError Nat :=
  match s.contents ino with
  | some (.dir es) => .ok es.length
  | _ => .error .invalidInodeType

/-- `Encryptor::finish()`: the buffered plaintext overwrites the sink file
from the start; the file is not truncated, so old bytes beyond the written
prefix survive. -/
def commitFile (s : St) (fid : Nat) (buf : List Nat) : St :=
  { s with files := upd s.files fid (some (buf ++ ((s.files fid).getD []).drop buf.length)) }

/-- `create_read_handle`: open `contents/<ino>` (fails on a directory or a
missing path), build a fresh decryptor, cache the attributes, `pos = 0`. -/
def createReadHandle (s : St) (ino h : Nat) : Except FsError St :=
  match s.contents ino with
  | some (.file fid) =>
    match s.inodes ino with
    | some a => .ok { s with readHandles := aupsert s.readHandles h ⟨a, 0, fid⟩ }
    | none => .error .inodeNotFound
  | _ => .error .ioErr

/-- `create_write_handle`: open `contents/<ino>` read+write (no truncate),
build an encryptor over it, cache the attributes, `pos = 0`. -/
def createWriteHandle (s : St) (ino h : Nat) : Except FsError St :=
  match s.contents ino with
  | some (.file fid) =>
    match s.inodes ino with
    | some a => .ok { s with writeHandles := aupsert s.writeHandles h ⟨a, false, 0, [], fid⟩ }
    | none => .error .inodeNotFound
  | _ => .error .ioErr

/-- `allocate_next_handle`: `fetch_add(1)` returns the previous counter. -/
def allocateHandle (s : St) : Nat × St :=
  (s.nextHandle, { s with nextHandle := s.nextHandle + 1 })

/-- The read phase of `open` (lines 699-702): allocate the next handle
(`fetch_add` returns the previous counter) and create the read handle. -/
def fsOpenRead (s : St) (ino : Nat) (rd : Bool) : Except FsError Nat × St :=
  if rd then
    match createReadHandle { s with nextHandle := s.nextHandle + 1 } ino s.nextHandle with
    | .error e => (.error e, { s with nextHandle := s.nextHandle + 1 })
    | .ok s2 => (.ok s.nextHandle, s2)
  else (.ok 0, s)

/-- The write phase of `open` (lines 703-709): reject a handle id already in
the write table, then allocate and create the write handle. -/
def fsOpenWrite (s1 : St) (ino h : Nat) (wr : Bool) : Except FsError Nat × St :=
  if wr then
    if (alookup s1.writeHandles h).isSome then (.error .invalidInput, s1)
    else
      match createWriteHandle { s1 with nextHandle := s1.nextHandle + 1 } ino s1.nextHandle with
      | .error e => (.error e, { s1 with nextHandle := s1.nextHandle + 1 })
      | .ok s3 => (.ok s1.nextHandle, s3)
  else (.ok h, s1)

/-- `open(ino, read, write)`. -/
def fsOpen (s : St) (ino : Nat) (rd wr : Bool) : Except FsError Nat × St :=
  if ¬ rd ∧ ¬ wr then (.error .invalidInput, s)
  else if isDir s ino then (.error .invalidInodeType, s)
  else
    match fsOpenRead s ino rd with
    | (.error e, s1) => (.error e, s1)
    | (.ok h, s1) => fsOpenWrite s1 ino h wr

/-- `flush(fh)`: no-op for `0`; flushes the encryptor of a write handle
(no observable state change in the model); otherwise `InvalidFileHandle`. -/
def fsFlush (s : St) (h : Nat) : Except FsError Unit × St :=
  if h = 0 then (.ok ⟨⟩, s)
  else
    match alookup s.writeHandles h with
    | none => (.error .invalidFileHandle, s)
    | some _ => (.ok ⟨⟩, s)

/-- `{ s with readHandles[h] := rh }`. -/
def setRH (s : St) (h : Nat) (rh : RH) : St :=
  { s with readHandles := aupsert s.readHandles h rh }

/-- `{ s with writeHandles[h] := wh }`. -/
def setWH (s : St) (h : Nat) (wh : WH) : St :=
  { s with writeHandles := aupsert s.writeHandles h wh }

/-- The seek-forward loop of `read` (lines 466-479): drain 4096-byte chunks
from the decryptor until `pos = offset`.  Returns the final decryptor
position together with the loop outcome. -/
def seekLoop (d : List Nat) (offset pos fuel : Nat) : Option (Except FsError Unit × Nat) :=
  match fuel with
  | 0 => none
  | fuel + 1 =>
    let readLen := if pos + 4096 > offset then offset - pos else 4096
    if readLen > 0 then
      if pos + readLen ≤ d.length then
        if pos + readLen = offset then some (.ok ⟨⟩, pos + readLen)
        else seekLoop d offset (pos + readLen) fuel
      else some (.error .ioErr, pos)
    else seekLoop d offset pos fuel

/-- The tail phase of `read` (lines 482-492): clamp the caller's buffer to
the cached size, `read_exact` it, advance `pos`, update cached `atime`. -/
def readFinish (s : St) (h : Nat) (rh : RH) (offset blen now : Nat) :
    Except FsError (List Nat) × St :=
  let n := if offset + blen > rh.attr.size then rh.attr.size - offset else blen
  match s.files rh.fid with
  | none => (.error .ioErr, s)
  | some d =>
    if rh.pos + n ≤ d.length then
      let bytes := (d.drop rh.pos).take n
      (.ok bytes, setRH s h ⟨{ rh.attr with atime := now }, rh.pos + n, rh.fid⟩)
    else (.error .ioErr, s)

/-- `read(ino, offset, buf, fh)` with a caller buffer of length `blen`;
returns the bytes read (the return value of the source is their count). -/
def fsRead (s : St) (ino offset blen h now fuel : Nat) :
    Option (Except FsError (List Nat) × St) :=
  if ¬ nodeExists s ino then some (.error .inodeNotFound, s)
  else if ¬ isFile s ino then some (.error .invalidInodeType, s)
  else
    match alookup s.readHandles h with
    | none => some (.error .invalidFileHandle, s)
    | some rh0 =>
      if rh0.attr.ino ≠ ino then some (.error .invalidFileHandle, s)
      else if rh0.attr.kind = .directory then some (.error .invalidInodeType, s)
      else if offset ≥ rh0.attr.size then some (.ok [], s)
      else if rh0.pos = offset then some (readFinish s h rh0 offset blen now)
      else
        -- rewind by restart when the stream is past the offset
        match (if rh0.pos > offset then createReadHandle s ino h else .ok s) with
        | .error e => some (.error e, s)
        | .ok s1 =>
          match alookup s1.readHandles h with
          | none => some (.error .otherErr, s1)
          | some rh1 =>
            if offset > 0 then
              match s1.files rh1.fid with
              | none => some (.error .ioErr, s1)
              | some d =>
                match seekLoop d offset rh1.pos fuel with
                | none => none
                | some (.error e, p) => some (.error e, setRH s1 h ⟨rh1.attr, p, rh1.fid⟩)
                | some (.ok _, p) =>
                  some (readFinish (setRH s1 h ⟨rh1.attr, p, rh1.fid⟩) h
                    ⟨rh1.attr, p, rh1.fid⟩ offset blen now)
            else some (readFinish s1 h rh1 offset blen now)

/-- The rebuild copy loop of `write_all` (lines 584-605): copy
`min(offset, attr.size)` plaintext bytes from the old content into the new
encryptor, in 4096-byte chunks.  Faithful to the source, the `break` sits
inside `if read_len > 0`, so when `offset_in_bounds = 0` the loop never
terminates.  Returns the encryptor buffer and `position`. -/
def rebuildCopy (d : List Nat) (offset attrSize posRead : Nat) (buf : List Nat)
    (position fuel : Nat) : Option (Except FsError Unit × List Nat × Nat) :=
  match fuel with
  | 0 => none
  | fuel + 1 =>
    let ob := min offset attrSize
    let readLen := if posRead + 4096 > ob then ob - posRead else 4096
    if readLen > 0 then
      if posRead + readLen ≤ d.length then
        let buf' := buf ++ (d.drop posRead).take readLen
        if posRead + readLen = ob then some (.ok ⟨⟩, buf', position + readLen)
        else rebuildCopy d offset attrSize (posRead + readLen) buf' (position + readLen) fuel
      else some (.error .ioErr, buf, position)
    else rebuildCopy d offset attrSize posRead buf position fuel

/-- The zero-fill loop of `write_all` (lines 612-622). -/
def holeLoop (offset : Nat) (buf : List Nat) (pos fuel : Nat) : Option (List Nat × Nat) :=
  match fuel with
  | 0 => none
  | fuel + 1 =>
    let len := min 4096 (offset - pos)
    let buf' := buf ++ List.replicate len 0
    if pos + len = offset then some (buf', pos + len)
    else holeLoop offset buf' (pos + len) fuel

/-- The tail-skip loop of `write_all` (lines 633-641).  Faithful to the
source, `read_pos` is re-initialized to `0` on every iteration, so each pass
reads `min(4096, position)` bytes and the loop can only break when
`position ≤ 4096`.  `dpos` is the decryptor's consumed-byte count. -/
def skipLoop (d : List Nat) (position dpos fuel : Nat) : Option (Except FsError Unit × Nat) :=
  match fuel with
  | 0 => none
  | fuel + 1 =>
    let len := min 4096 position
    if dpos + len ≤ d.length then
      if len = position then some (.ok ⟨⟩, dpos + len)
      else skipLoop d position (dpos + len) fuel
    else some (.error .ioErr, dpos)

/-- The tail-copy loop of `write_all` (lines 643-651): copy
`attr.size - position` bytes from the decryptor into the encryptor. -/
def copyLoop (d : List Nat) (attrSize dpos : Nat) (buf : List Nat) (position fuel : Nat) :
    Option (Except FsError Unit × List Nat × Nat) :=
  match fuel with
  | 0 => none
  | fuel + 1 =>
    let len := min 4096 (attrSize - position)
    if dpos + len ≤ d.length then
      let buf' := buf ++ (d.drop dpos).take len
      if position + len = attrSize then some (.ok ⟨⟩, buf', position + len)
      else copyLoop d attrSize (dpos + len) buf' (position + len) fuel
    else some (.error .ioErr, buf, position)

/-- Step 1 of `write_all` (lines 557-607): if the handle position differs
from the requested offset, finish the current encryptor, move a tmp sink
over the canonical file, and rebuild `[0, min(offset, attr.size))` of the
content into a fresh tmp encryptor.  The handle is removed first and only
re-inserted after a successful copy, as in the source. -/
def writeSeek (s : St) (offset h fuel : Nat) : Option (Except FsError Unit × St) :=
  match alookup s.writeHandles h with
  | none => some (.error .otherErr, s)
  | some wh =>
    if wh.pos = offset then some (.ok ⟨⟩, s)
    else
      let s1 : St := { s with writeHandles := aerase s.writeHandles h }
      let s2 := commitFile s1 wh.sinkFid wh.buf
      let s3 : St :=
        if wh.tmpSink then
          { s2 with contents := upd s2.contents wh.attr.ino (some (.file wh.sinkFid)) }
        else s2
      match s3.contents wh.attr.ino with
      | some (.file cfid) =>
        (match s3.files cfid with
        | none => some (.error .ioErr, s3)
        | some d =>
          let tfid := s3.nextFid
          let s4 : St := { s3 with files := upd s3.files tfid (some []),
                                   nextFid := s3.nextFid + 1 }
          match (if offset > 0 then rebuildCopy d offset wh.attr.size 0 [] 0 fuel
                 else some (.ok ⟨⟩, [], 0)) with
          | none => none
          | some (.error e, _, _) => some (.error e, s4)
          | some (.ok _, nbuf, npos) =>
            some (.ok ⟨⟩, setWH s4 h ⟨wh.attr, true, npos, nbuf, tfid⟩))
      | _ => some (.error .ioErr, s3)

/-- Steps 4 of `write_all` (lines 629-653): if `position < attr.size`, open a
fresh decryptor over the canonical content file, run the (buggy) skip loop
and then the tail-copy loop.  Returns the encryptor buffer and position. -/
def writeTail (s : St) (attr : FileAttr) (position : Nat) (buf : List Nat) (fuel : Nat) :
    Option (Except FsError Unit × List Nat × Nat) :=
  if position < attr.size then
    match s.contents attr.ino with
    | some (.file cfid) =>
      (match s.files cfid with
      | none => some (.error .ioErr, buf, position)
      | some d =>
        match skipLoop d position 0 fuel with
        | none => none
        | some (.error e, _) => some (.error e, buf, position)
        | some (.ok _, dpos) =>
          match copyLoop d attr.size dpos buf position fuel with
          | none => none
          | some r => some r)
    | _ => some (.error .ioErr, buf, position)
  else some (.ok ⟨⟩, buf, position)

/-- `write_all(ino, offset, buf, fh)`. -/
def writeAll (s : St) (ino offset : Nat) (wbuf : List Nat) (h now fuel : Nat) :
    Option (Except FsError Unit × St) :=
  if ¬ nodeExists s ino then some (.error .inodeNotFound, s)
  else if ¬ isFile s ino then some (.error .invalidInodeType, s)
  else
    match alookup s.writeHandles h with
    | none => some (.error .invalidFileHandle, s)
    | some wh0 =>
      if wh0.attr.ino ≠ ino then some (.error .invalidFileHandle, s)
      else if wh0.attr.kind = .directory then some (.error .invalidInodeType, s)
      else
        match writeSeek s offset h fuel with
        | none => none
        | some (.error e, s1) => some (.error e, s1)
        | some (.ok _, s1) =>
          match alookup s1.writeHandles h with
          | none => some (.error .otherErr, s1)
          | some wh =>
            match (if offset > wh.pos then holeLoop offset wh.buf wh.pos fuel
                   else some (wh.buf, wh.pos)) with
            | none => none
            | some (buf1, pos1) =>
              -- now write the new data
              let buf2 := buf1 ++ wbuf
              let pos2 := pos1 + wbuf.length
              match writeTail s1 wh.attr pos2 buf2 fuel with
              | none => none
              | some (.error e, buf3, pos3) =>
                some (.error e, setWH s1 h ⟨wh.attr, wh.tmpSink, pos3, buf3, wh.sinkFid⟩)
              | some (.ok _, buf3, pos3) =>
                let a' := { wh.attr with size := pos3, mtime := now, ctime := now }
                some (.ok ⟨⟩, setWH s1 h ⟨a', wh.tmpSink, pos3, buf3, wh.sinkFid⟩)

/-- The reader-invalidation loop of `release_handle` (lines 516-520): remove
and re-create every live read handle over its own inode.  A failing
`create_read_handle` is an `unwrap()` panic in the source. -/
def recreateReaders (s : St) (ks : List (Nat × RH)) : Except FsError St :=
  match ks with
  | [] => .ok s
  | (k, rh) :: rest =>
    let s1 : St := { s with readHandles := aerase s.readHandles k }
    match createReadHandle s1 rh.attr.ino k with
    | .error _ => .error .otherErr
    | .ok s2 => recreateReaders s2 rest

/-- `release_handle(fh)`. -/
def releaseHandle (s : St) (h : Nat) : Except FsError Unit × St :=
  if h = 0 then (.ok ⟨⟩, s)
  else
    let pr : Bool × St :=
      match alookup s.readHandles h with
      | some rh =>
        (true, writeInode { s with readHandles := aerase s.readHandles h } rh.attr)
      | none => (false, s)
    match alookup pr.2.writeHandles h with
    | some wh =>
      let s2 : St := { pr.2 with writeHandles := aerase pr.2.writeHandles h }
      let s3 := writeInode s2 wh.attr
      let s4 := commitFile s3 wh.sinkFid wh.buf
      if wh.tmpSink then
        -- move the tmp file over the canonical content file, then
        -- re-create all read handles because the file has changed
        let s5 : St := { s4 with contents := upd s4.contents wh.attr.ino (some (.file wh.sinkFid)) }
        match recreateReaders s5 s5.readHandles with
        | .error e => (.error e, s5)
        | .ok s6 => (.ok ⟨⟩, s6)
      else (.ok ⟨⟩, s4)
    | none => if pr.1 then (.ok ⟨⟩, pr.2) else (.error .invalidFileHandle, pr.2)

/-- The per-kind part of `create_nod` (lines 232-259): create the content
object of the fresh inode.  For a directory this also records the parent in
the `parentOf` ghost, next to writing the `$..` entry the source writes. -/
def createContents (s : St) (attr : FileAttr) (parent : Nat) : Except FsError Unit × St :=
  match attr.kind with
  | .regularFile =>
    -- OpenOptions write+create+truncate: fails only if the path is a directory
    (match s.contents attr.ino with
    | some (.dir _) => (.error .ioErr, s)
    | _ =>
      let fid := s.nextFid
      (.ok ⟨⟩, { s with files := upd s.files fid (some []),
                        contents := upd s.contents attr.ino (some (.file fid)),
                        nextFid := s.nextFid + 1 }))
  | .directory =>
    -- fs::create_dir: fails if the path already exists
    if (s.contents attr.ino).isSome then (.error .ioErr, s)
    else
      let s1 : St := { s with contents := upd s.contents attr.ino (some (.dir [])),
                              parentOf := upd s.parentOf attr.ino (some parent) }
      match insertDirectoryEntry s1 attr.ino "$." (attr.ino, .directory) with
      | .error e => (.error e, s1)
      | .ok s2 =>
        match insertDirectoryEntry s2 attr.ino "$.." (parent, .directory) with
        | .error e => (.error e, s2)
        | .ok s3 => (.ok ⟨⟩, s3)
  | .other => (.error .invalidInodeType, s)

/-- `create_nod(parent, name, attr, read, write)`.  `newIno` stands for the
value drawn by `generate_next_inode` (uniform random, `> ROOT_INODE`, not
live); `now` for the wall clock. -/
def createNod (s : St) (parent : Nat) (name : String) (attr0 : FileAttr)
    (rd wr : Bool) (newIno now : Nat) : Except FsError (Nat × FileAttr) × St :=
  if ¬ nodeExists s parent then (.error .inodeNotFound, s)
  else
    match findByName s parent name with
    | .error e => (.error e, s)
    | .ok (some _) => (.error .alreadyExists, s)
    | .ok none =>
      let attr := { attr0 with ino := newIno }
      let s1 := writeInode s attr
      match createContents s1 attr parent with
      | (.error e, s2) => (.error e, s2)
      | (.ok _, s2) =>
        match insertDirectoryEntry s2 parent name (attr.ino, attr.kind) with
        | .error e => (.error e, s2)
        | .ok s3 =>
          match s3.inodes parent with
          | none => (.error .inodeNotFound, s3)
          | some pa =>
            let s4 := writeInode s3 { pa with mtime := now, ctime := now }
            if attr.kind = .regularFile ∧ (rd ∨ wr) then
              match fsOpen s4 attr.ino rd wr with
              | (.error e, s5) => (.error e, s5)
              | (.ok h, s5) => (.ok (h, attr), s5)
            else (.ok (0, attr), s4)

/-- `remove_dir(parent, name)`. -/
def removeDir (s : St) (parent : Nat) (name : String) (now : Nat) :
    Except FsError Unit × St :=
  if ¬ isDir s parent then (.error .invalidInodeType, s)
  else if ¬ existsByName s parent name then (.error .notFound, s)
  else
    match findByName s parent name with
    | .error e => (.error e, s)
    | .ok none => (.error .notFound, s)
    | .ok (some attr) =>
      if attr.kind ≠ .directory then (.error .invalidInodeType, s)
      else
        -- check if it's empty: read_dir(attr.ino).take(3).count() > 2
        match s.contents attr.ino with
        | some (.dir des) =>
          if 2 < (des.take 3).length then (.error .notEmpty, s)
          else
            -- remove inode file, then the contents directory tree
            (match s.inodes attr.ino with
            | none => (.error .ioErr, s)
            | some _ =>
              let s1 : St := { s with inodes := upd s.inodes attr.ino none }
              let s2 : St := { s1 with contents := upd s1.contents attr.ino none }
              -- remove from parent directory (no dot mapping on this path)
              match removeDirectoryEntry s2 parent name with
              | .error e => (.error e, s2)
              | .ok s3 =>
                match s3.inodes parent with
                | none => (.error .inodeNotFound, s3)
                | some pa => (.ok ⟨⟩, writeInode s3 { pa with mtime := now, ctime := now }))
        | _ => (.error .invalidInodeType, s)

/-- `remove_file(parent, name)`. -/
def removeFile (s : St) (parent : Nat) (name : String) (now : Nat) :
    Except FsError Unit × St :=
  if ¬ isDir s parent then (.error .invalidInodeType, s)
  else if ¬ existsByName s parent name then (.error .notFound, s)
  else
    match findByName s parent name with
    | .error e => (.error e, s)
    | .ok none => (.error .notFound, s)
    | .ok (some attr) =>
      if attr.kind ≠ .regularFile then (.error .invalidInodeType, s)
      else
        match s.inodes attr.ino with
        | none => (.error .ioErr, s)
        | some _ =>
          let s1 : St := { s with inodes := upd s.inodes attr.ino none }
          -- fs::remove_file(contents/<ino>): fails on a directory or missing
          match s1.contents attr.ino with
          | some (.file _) =>
            let s2 : St := { s1 with contents := upd s1.contents attr.ino none }
            (match removeDirectoryEntry s2 parent name with
            | .error e => (.error e, s2)
            | .ok s3 =>
              match s3.inodes parent with
              | none => (.error .inodeNotFound, s3)
              | some pa => (.ok ⟨⟩, writeInode s3 { pa with mtime := now, ctime := now }))
          | _ => (.error .ioErr, s1)

/-- The destination check of `rename` (lines 777-783): only overwrite an
existing directory if it is empty.  An `Err` from `find_by_name` is ignored
by the `if let Ok(Some(..))` pattern; an `Err` from `children_count`
propagates. -/
def renameDestCheck (s : St) (newParent : Nat) (newName : String) : Except FsError Unit :=
  match findByName s newParent newName with
  | .ok (some na) =>
    if na.kind = .directory then
      match childrenCount s na.ino with
      | .error e => .error e
      | .ok c => if 2 < c then .error .notEmpty else .ok ⟨⟩
    else .ok ⟨⟩
  | _ => .ok ⟨⟩

/-- `rename(parent, name, new_parent, new_name)`.  The parent and new-parent
`mtime`/`ctime` updates and the moved inode's `ctime` update are computed
into locals in the source and never written back; the model mirrors that by
not touching the inode store for them (the clock argument is unused). -/
def rename (s : St) (parent : Nat) (name : String) (newParent : Nat) (newName : String)
    (_now : Nat) : Except FsError Unit × St :=
  if ¬ nodeExists s parent then (.error .inodeNotFound, s)
  else if ¬ isDir s parent then (.error .invalidInodeType, s)
  else if ¬ nodeExists s newParent then (.error .inodeNotFound, s)
  else if ¬ isDir s newParent then (.error .invalidInodeType, s)
  else if ¬ existsByName s parent name then (.error .notFound, s)
  else if parent = newParent ∧ name = newName then (.ok ⟨⟩, s)
  else
    match renameDestCheck s newParent newName with
    | .error e => (.error e, s)
    | .ok _ =>
      match findByName s parent name with
      | .error e => (.error e, s)
      | .ok none => (.error .otherErr, s)
      | .ok (some attr) =>
        match removeDirectoryEntry s parent name with
        | .error e => (.error e, s)
        | .ok s1 =>
          match insertDirectoryEntry s1 newParent newName (attr.ino, attr.kind) with
          | .error e => (.error e, s1)
          | .ok s2 =>
            -- get_inode(parent)? / get_inode(new_parent)?: the fetched attrs
            -- get fresh mtime/ctime locally but are never flushed
            match s2.inodes parent, s2.inodes newParent with
            | some _, some _ =>
              if attr.kind = .directory then
                match insertDirectoryEntry s2 attr.ino "$.." (newParent, .directory) with
                | .error e => (.error e, s2)
                | .ok s3 =>
                  (.ok ⟨⟩, { s3 with parentOf := upd s3.parentOf attr.ino (some newParent) })
              else (.ok ⟨⟩, s2)
            | _, _ => (.error .inodeNotFound, s2)

/-- The empty engine state before `new` runs (fresh data directory). -/
def emptySt : St :=
  ⟨fun _ => none, fun _ => none, fun _ => none, 0, [], [], 1, fun _ => none⟩

/-- The root attributes built by `ensure_root_exists` (uid/gid of the data
dir modelled as 0). -/
def rootAttr (now : Nat) : FileAttr :=
  ⟨1, 0, 0, now, now, now, now, .directory, 0o755, 2, 0, 0, 0, 0, 0⟩

/-- `EncryptedFs::new` on a fresh data dir: `ensure_structure_created` plus
`ensure_root_exists`, which writes the root inode, creates its contents
directory and inserts only the `"$."` entry. -/
def initState (now : Nat) : St :=
  let s1 := writeInode emptySt (rootAttr now)
  let s2 : St := { s1 with contents := upd s1.contents 1 (some (.dir [])) }
  match insertDirectoryEntry s2 1 "$." (1, .directory) with
  | .ok s3 => s3
  | .error _ => s2

/-! ## Basic lemmas about the map helpers -/

@[simp] theorem upd_self {α : Type} (m : Nat → Option α) (k : Nat) (v : Option α) :
    upd m k v k = v := by
  simp [upd]

theorem upd_ne {α : Type} (m : Nat → Option α) (k i : Nat) (v : Option α) (h : i ≠ k) :
    upd m k v i = m i := by
  simp [upd, h]

@[simp] theorem alookup_aupsert_self {α : Type} (l : List (Nat × α)) (k : Nat) (v : α) :
    alookup (aupsert l k v) k = some v := by
  induction l with
  | nil => simp [aupsert, alookup]
  | cons hd tl ih =>
    by_cases h : hd.1 = k
    · simp [aupsert, alookup, h]
    · simp [aupsert, alookup, h, ih]

theorem alookup_aupsert_ne {α : Type} (l : List (Nat × α)) (k k' : Nat) (v : α)
    (h : k' ≠ k) : alookup (aupsert l k v) k' = alookup l k' := by
  induction l with
  | nil => simp [aupsert, alookup, Ne.symm h]
  | cons hd tl ih =>
    by_cases h1 : hd.1 = k
    · simp only [aupsert, h1, if_pos]
      simp [alookup, Ne.symm h, h1]
    · simp only [aupsert, h1, if_neg, ne_eq, not_false_iff]
      by_cases h2 : hd.1 = k'
      · simp [alookup, h2]
      · simp [alookup, h2, ih]

theorem alookup_aerase_ne {α : Type} (l : List (Nat × α)) (k k' : Nat) (h : k' ≠ k) :
    alookup (aerase l k) k' = alookup l k' := by
  induction l with
  | nil => simp [aerase]
  | cons hd tl ih =>
    by_cases h1 : hd.1 = k
    · simp only [aerase, h1, if_pos]
      simp [alookup, h1, Ne.symm h]
    · simp only [aerase, h1, if_neg, ne_eq, not_false_iff]
      by_cases h2 : hd.1 = k'
      · simp [alookup, h2]
      · simp [alookup, h2, ih]

@[simp] theorem lookupE_upsertE_self (es : Entries) (k : String) (v : Nat × FType) :
    lookupE (upsertE es k v) k = some v := by
  induction es with
  | nil => simp [upsertE, lookupE]
  | cons hd tl ih =>
    by_cases h : hd.1 = k
    · simp [upsertE, lookupE, h]
    · simp [upsertE, lookupE, h, ih]

theorem lookupE_upsertE_ne (es : Entries) (k k' : String) (v : Nat × FType)
    (h : k' ≠ k) : lookupE (upsertE es k v) k' = lookupE es k' := by
  induction es with
  | nil => simp [upsertE, lookupE, Ne.symm h]
  | cons hd tl ih =>
    by_cases h1 : hd.1 = k
    · simp only [upsertE, h1, if_pos]
      simp [lookupE, Ne.symm h, h1]
    · simp only [upsertE, h1, if_neg, ne_eq, not_false_iff]
      by_cases h2 : hd.1 = k'
      · simp [lookupE, h2]
      · simp [lookupE, h2, ih]

theorem lookupE_eq_none (es : Entries) (k : String) (h : k ∉ es.map Prod.fst) :
    lookupE es k = none := by
  induction es with
  | nil => simp [lookupE]
  | cons hd tl ih =>
    simp only [List.map_cons, List.mem_cons, not_or] at h
    simp [lookupE, Ne.symm h.1, ih h.2]

theorem lookupE_eraseE_self (es : Entries) (k : String)
    (h : (es.map Prod.fst).Nodup) : lookupE (eraseE es k) k = none := by
  induction es with
  | nil => simp [eraseE, lookupE]
  | cons hd tl ih =>
    simp only [List.map_cons, List.nodup_cons] at h
    by_cases h1 : hd.1 = k
    · rw [eraseE, if_pos h1]
      exact lookupE_eq_none tl k (h1 ▸ h.1)
    · rw [eraseE, if_neg h1]
      simp [lookupE, h1, ih h.2]

theorem lookupE_eraseE_ne (es : Entries) (k k' : String) (h : k' ≠ k) :
    lookupE (eraseE es k) k' = lookupE es k' := by
  induction es with
  | nil => simp [eraseE]
  | cons hd tl ih =>
    by_cases h1 : hd.1 = k
    · simp only [eraseE, h1, if_pos]
      simp [lookupE, h1, Ne.symm h]
    · simp only [eraseE, h1, if_neg, ne_eq, not_false_iff]
      by_cases h2 : hd.1 = k'
      · simp [lookupE, h2]
      · simp [lookupE, h2, ih]

/-! ## C10: flush -/

/-- C10: `flush(fh)` succeeds only for `fh = 0` (a no-op) or a live write
handle; for every `fh` that is a live read handle, and for every `fh` in
neither table, it returns `Err(InvalidFileHandle)` (the source checks only
the write table, so a read handle — never also a write handle, since handle
ids are allocated uniquely — falls into the same error branch). -/
theorem c10_flush_only_write_handles :
    (∀ s : St, fsFlush s 0 = (.ok ⟨⟩, s)) ∧
    (∀ (s : St) (h : Nat) (wh : WH), h ≠ 0 → alookup s.writeHandles h = some wh →
      fsFlush s h = (.ok ⟨⟩, s)) ∧
    (∀ (s : St) (h : Nat) (rh : RH), h ≠ 0 → alookup s.readHandles h = some rh →
      alookup s.writeHandles h = none →
      fsFlush s h = (.error .invalidFileHandle, s)) ∧
    (∀ (s : St) (h : Nat), h ≠ 0 → alookup s.readHandles h = none →
      alookup s.writeHandles h = none →
      fsFlush s h = (.error .invalidFileHandle, s)) := by
  refine ⟨fun s => by simp [fsFlush], fun s h wh h0 hw => ?_, fun s h rh h0 hr hw => ?_,
    fun s h h0 hr hw => ?_⟩
  · simp [fsFlush, h0, hw]
  · simp [fsFlush, h0, hw]
  · simp [fsFlush, h0, hw]

/-- Concrete state for the C10 witness: one live read handle (3) and one
live write handle (4). -/
def c10St : St :=
  { emptySt with readHandles := [(3, ⟨rootAttr 0, 0, 0⟩)],
                 writeHandles := [(4, ⟨rootAttr 0, false, 0, [], 0⟩)] }

/-- Witness for C10 at a concrete state: handle 3 is a live read handle and
flush rejects it, handle 4 is a live write handle and flush accepts it. -/
theorem c10_flush_only_write_handles_witness :
    fsFlush c10St 3 = (.error .invalidFileHandle, c10St) ∧
    fsFlush c10St 4 = (.ok ⟨⟩, c10St) :=
  ⟨c10_flush_only_write_handles.2.2.1 c10St 3 ⟨rootAttr 0, 0, 0⟩ (by decide)
      (by simp [c10St, alookup]) (by simp [c10St, alookup]),
   c10_flush_only_write_handles.2.1 c10St 4 ⟨rootAttr 0, false, 0, [], 0⟩ (by decide)
      (by simp [c10St, alookup])⟩

/-! ## C9: find_by_name on a regular-file parent -/

/-- C9: for every live inode `parent` of kind `RegularFile` and every name,
`find_by_name(parent, name)` returns `Ok(None)` rather than
`Err(InvalidInodeType)`: `exists_by_name` joins the name onto the parent's
content path, which is a regular file, so the name-existence check (which
runs before the directory-kind check) always fails and the function returns
early. -/
theorem c9_find_by_name_regular_parent (s : St) (parent : Nat) (name : String)
    (a : FileAttr) (fid : Nat)
    (hI : s.inodes parent = some a)
    (hC : s.contents parent = some (.file fid)) :
    findByName s parent name = .ok none := by
  simp [findByName, nodeExists, hI, existsByName, hC]

/-- Concrete state for the C9 witness: inode 2 is a live regular file. -/
def c9St : St :=
  { emptySt with
      inodes := upd emptySt.inodes 2 (some ⟨2, 3, 0, 0, 0, 0, 0, .regularFile, 0o644, 1, 0, 0, 0, 0, 0⟩),
      contents := upd emptySt.contents 2 (some (.file 0)),
      files := upd emptySt.files 0 (some [7, 8, 9]) }

/-- Witness for C9: a lookup of any name under the regular file 2 yields
`Ok(None)`. -/
theorem c9_find_by_name_regular_parent_witness :
    findByName c9St 2 "child" = .ok none :=
  c9_find_by_name_regular_parent c9St 2 "child"
    ⟨2, 3, 0, 0, 0, 0, 0, .regularFile, 0o644, 1, 0, 0, 0, 0, 0⟩ 0
    (by simp [c9St, emptySt]) (by simp [c9St, emptySt])

/-! ## C7: read return count -/

/-- The seek-forward loop of `read` reaches `offset` whenever the decryptor
has at least `offset` bytes and the fuel covers the remaining distance (every
iteration advances by at least one byte). -/
theorem seekLoop_reaches (d : List Nat) (offset : Nat) (hd : offset ≤ d.length) :
    ∀ (fuel pos : Nat), pos < offset → offset - pos ≤ fuel →
      seekLoop d offset pos fuel = some (.ok ⟨⟩, offset) := by
  intro fuel
  induction fuel with
  | zero =>
    intro pos h1 h2
    exact absurd h1 (by omega)
  | succ n ih =>
    intro pos h1 h2
    by_cases hc : pos + 4096 > offset
    · have hr : pos + (offset - pos) = offset := by omega
      simp only [seekLoop, if_pos hc]
      rw [if_pos (by omega : offset - pos > 0),
        if_pos (by omega : pos + (offset - pos) ≤ d.length), if_pos hr, hr]
    · simp only [seekLoop, if_neg hc]
      rw [if_pos (by norm_num : (4096 : Nat) > 0),
        if_pos (by omega : pos + 4096 ≤ d.length)]
      by_cases he : pos + 4096 = offset
      · rw [if_pos he, he]
      · rw [if_neg he]
        exact ih (pos + 4096) (by omega) (by omega)

/-- The tail phase of `read` when the stream is positioned at `offset` and
the decryptor's source holds exactly `attr.size` bytes: it returns
`min blen (attr.size - offset)` bytes. -/
theorem readFinish_count (s : St) (h : Nat) (rh : RH) (offset blen now : Nat) (d : List Nat)
    (hF : s.files rh.fid = some d) (hpos : rh.pos = offset)
    (hlen : d.length = rh.attr.size) (hOff : offset < rh.attr.size) :
    (readFinish s h rh offset blen now).1 =
      .ok ((d.drop offset).take (min blen (rh.attr.size - offset))) := by
  have hn : (if offset + blen > rh.attr.size then rh.attr.size - offset else blen)
      = min blen (rh.attr.size - offset) := by
    split <;> omega
  have hmin : min blen (rh.attr.size - offset) ≤ rh.attr.size - offset :=
    Nat.min_le_right _ _
  simp only [readFinish, hF, hn, hpos]
  rw [if_pos (by omega : offset + min blen (rh.attr.size - offset) ≤ d.length)]

/-- C7: for every `read(ino, offset, buf, fh)` on a live regular file through
a valid read handle whose cached attributes agree with the store and whose
content file holds `attr.size` plaintext bytes, the call returns `0` bytes
when `offset ≥ attr.size` and exactly `min(len(buf), attr.size - offset)`
bytes otherwise (fuel at least `offset` covers the seek loop). -/
theorem c7_read_return_count
    (s : St) (ino offset blen h now fuel : Nat)
    (a : FileAttr) (fid p : Nat) (d : List Nat)
    (hI : s.inodes ino = some a)
    (hC : s.contents ino = some (.file fid))
    (hF : s.files fid = some d)
    (hL : d.length = a.size)
    (hR : alookup s.readHandles h = some ⟨a, p, fid⟩)
    (hK : a.kind = .regularFile)
    (hIno : a.ino = ino)
    (hfuel : offset ≤ fuel) :
    ∃ bs s', fsRead s ino offset blen h now fuel = some (.ok bs, s') ∧
      bs.length = if offset < a.size then min blen (a.size - offset) else 0 := by
  have hNE : nodeExists s ino = true := by simp [nodeExists, hI]
  have hIF : isFile s ino = true := by simp [isFile, hC]
  have hbs : ∀ s2 : St, s2.files fid = some d → offset < a.size →
      ∃ bs s', some (readFinish s2 h ⟨a, offset, fid⟩ offset blen now) = some (.ok bs, s') ∧
        bs.length = if offset < a.size then min blen (a.size - offset) else 0 := by
    intro s2 hF2 hOff
    have hfin := readFinish_count s2 h ⟨a, offset, fid⟩ offset blen now d hF2 rfl hL hOff
    refine ⟨(d.drop offset).take (min blen (a.size - offset)),
      (readFinish s2 h ⟨a, offset, fid⟩ offset blen now).2, ?_, ?_⟩
    · rw [← hfin]
    · have hmin : min blen (a.size - offset) ≤ a.size - offset := Nat.min_le_right _ _
      simp only [List.length_take, List.length_drop, hL, if_pos hOff]
      omega
  by_cases hOff : offset ≥ a.size
  · refine ⟨[], s, ?_, by simp [Nat.not_lt_of_ge hOff]⟩
    simp [fsRead, hNE, hIF, hR, hIno, hK, hOff]
  · push_neg at hOff
    by_cases hP : p = offset
    · subst hP
      obtain ⟨bs, s', heq, hlen⟩ := hbs s hF hOff
      exact ⟨bs, s', by
        simpa [fsRead, hNE, hIF, hR, hIno, hK, Nat.not_le_of_lt hOff] using heq, hlen⟩
    · -- the stream is not at `offset`: restart and/or drain forward
      by_cases hGt : p > offset
      · -- rewind by restart, then (for offset > 0) drain to offset
        have hcrh : createReadHandle s ino h = .ok (setRH s h ⟨a, 0, fid⟩) := by
          simp [createReadHandle, hC, hI, setRH]
        by_cases h0 : offset > 0
        · obtain ⟨bs, s', heq, hlen⟩ := hbs (setRH (setRH s h ⟨a, 0, fid⟩) h ⟨a, offset, fid⟩)
            (by simp [setRH]; exact hF) hOff
          refine ⟨bs, s', ?_, hlen⟩
          have hseek : seekLoop d offset 0 fuel = some (.ok ⟨⟩, offset) :=
            seekLoop_reaches d offset (by omega) fuel 0 h0 (by omega)
          simpa [fsRead, hNE, hIF, hR, hIno, hK, Nat.not_le_of_lt hOff, hP, hGt, hcrh,
            setRH, alookup_aupsert_self, hF, hseek, h0] using heq
        · -- offset = 0: the fresh handle is already at the offset
          have h00 : offset = 0 := by omega
          subst h00
          obtain ⟨bs, s', heq, hlen⟩ := hbs (setRH s h ⟨a, 0, fid⟩)
            (by simp [setRH]; exact hF) hOff
          refine ⟨bs, s', ?_, hlen⟩
          simpa [fsRead, hNE, hIF, hR, hIno, hK, Nat.not_le_of_lt hOff, hP, hGt, hcrh,
            setRH, alookup_aupsert_self] using heq
      · -- p < offset: drain forward from p
        have hLt : p < offset := by omega
        have h0 : offset > 0 := by omega
        obtain ⟨bs, s', heq, hlen⟩ := hbs (setRH s h ⟨a, offset, fid⟩)
          (by simp [setRH]; exact hF) hOff
        refine ⟨bs, s', ?_, hlen⟩
        have hseek : seekLoop d offset p fuel = some (.ok ⟨⟩, offset) :=
          seekLoop_reaches d offset (by omega) fuel p hLt (by omega)
        simpa [fsRead, hNE, hIF, hR, hIno, hK, Nat.not_le_of_lt hOff, hP, hGt,
          hF, hseek, h0] using heq

/-- C8: `remove_dir(parent, name)` on a name (distinct from the synthetic
`.`/`..`) that resolves to a directory `d` distinct from the parent returns
`NotEmpty` exactly when `d` has more than 2 entries; with at most 2 entries
it deletes `d`'s content tree, `d`'s inode file, and the parent's entry for
the name. -/
theorem c8_remove_dir_empty_guard
    (s : St) (parent : Nat) (name : String) (now : Nat)
    (pes : Entries) (pa da : FileAttr) (d : Nat) (k0 : FType) (des : Entries)
    (hPC : s.contents parent = some (.dir pes))
    (hPI : s.inodes parent = some pa)
    (hPIno : pa.ino = parent)
    (hdot1 : name ≠ ".") (hdot2 : name ≠ "..")
    (hE : lookupE pes name = some (d, k0))
    (hDI : s.inodes d = some da)
    (hDIno : da.ino = d)
    (hDK : da.kind = .directory)
    (hDC : s.contents d = some (.dir des))
    (hne : d ≠ parent)
    (hnodup : (pes.map Prod.fst).Nodup) :
    ((removeDir s parent name now).1 = .error .notEmpty ↔ 2 < des.length) ∧
    (des.length ≤ 2 →
      (removeDir s parent name now).1 = .ok ⟨⟩ ∧
      (removeDir s parent name now).2.inodes d = none ∧
      (removeDir s parent name now).2.contents d = none ∧
      (removeDir s parent name now).2.contents parent = some (.dir (eraseE pes name)) ∧
      lookupE (eraseE pes name) name = none) := by
  have hmap : mapDots name = name := by simp [mapDots, hdot1, hdot2]
  have hEx : existsByName s parent name = true := by
    simp [existsByName, hPC, hmap, hE]
  have hFind : findByName s parent name = .ok (some da) := by
    simp [findByName, nodeExists, hPI, hEx, isDir, hPC, hmap, hE, hDI]
  have htake : (des.take 3).length = min 3 des.length := List.length_take 3 des
  by_cases hcount : 2 < (des.take 3).length
  · have h2 : 2 < des.length := by omega
    constructor
    · simp only [removeDir, isDir, hPC, hEx, hFind, hDIno, hDK, hDC]
      simp [hcount, h2]
    · intro hle
      omega
  · have h2 : ¬ 2 < des.length := by omega
    have hres : (removeDir s parent name now) =
        (.ok ⟨⟩,
          writeInode
            { s with inodes := upd s.inodes d none,
                     contents := upd (upd s.contents d none) parent
                       (some (.dir (eraseE pes name))) }
            { pa with mtime := now, ctime := now }) := by
      simp only [removeDir, isDir, hPC, hEx, hFind, hDIno, hDK, hDC]
      rw [if_neg (by simp), if_neg hcount]
      simp only [hDIno, hDI]
      have hC2 : upd (upd s.contents d none) parent (some (.dir (eraseE pes name)))
          = upd (upd s.contents d none) parent (some (.dir (eraseE pes name))) := rfl
      simp only [removeDirectoryEntry, upd_ne _ d parent _ (Ne.symm hne), hPC, hE]
      simp only [upd_ne _ d parent _ (Ne.symm hne), hPI]
      rfl
    refine ⟨?_, fun hle => ?_⟩
    · rw [hres]
      simp [h2]
    · refine ⟨by rw [hres], ?_, ?_, ?_, lookupE_eraseE_self pes name hnodup⟩
      · rw [hres]
        simp only [writeInode, upd_ne _ pa.ino d _ (by omega : d ≠ pa.ino)]
        simp [upd]
      · rw [hres]
        simp only [writeInode]
        show upd (upd s.contents d none) parent _ d = none
        rw [upd_ne _ parent d _ hne]
        simp [upd]
      · rw [hres]
        simp only [writeInode]
        show upd (upd s.contents d none) parent _ parent = some _
        simp [upd]

/-- Concrete state for the C8 witness: root (1) contains directory "sub" (2),
which contains its two synthetic entries plus file "x" (3). -/
def c8St : St :=
  { emptySt with
      inodes := upd (upd (upd emptySt.inodes 1 (some (rootAttr 0))) 2
        (some ⟨2, 0, 0, 0, 0, 0, 0, .directory, 0o755, 2, 0, 0, 0, 0, 0⟩)) 3
        (some ⟨3, 0, 0, 0, 0, 0, 0, .regularFile, 0o644, 1, 0, 0, 0, 0, 0⟩),
      contents := upd (upd (upd emptySt.contents 1
        (some (.dir [("$.", 1, .directory), ("sub", 2, .directory)]))) 2
        (some (.dir [("$.", 2, .directory), ("$..", 1, .directory), ("x", 3, .regularFile)]))) 3
        (some (.file 0)),
      files := upd emptySt.files 0 (some []) }

/-- Witness for C8: removing non-empty "sub" (3 entries) from the root fails
with `NotEmpty`; after removing its member, the removal would succeed —
here we witness the populated case plus the guard equivalence. -/
theorem c8_remove_dir_empty_guard_witness :
    (removeDir c8St 1 "sub" 9).1 = .error .notEmpty := by
  have h := c8_remove_dir_empty_guard c8St 1 "sub" 9
    [("$.", 1, .directory), ("sub", 2, .directory)] (rootAttr 0)
    ⟨2, 0, 0, 0, 0, 0, 0, .directory, 0o755, 2, 0, 0, 0, 0, 0⟩ 2 .directory
    [("$.", 2, .directory), ("$..", 1, .directory), ("x", 3, .regularFile)]
    (by simp [c8St, emptySt, upd]) (by simp [c8St, emptySt, upd]) (by decide)
    (by decide) (by decide) (by simp [lookupE]) (by simp [c8St, emptySt, upd])
    (by decide) (by decide) (by simp [c8St, emptySt, upd]) (by decide) (by decide)
  exact h.1.mpr (by decide)

/-! ## C1 and C2: the tail-preservation skip loop fails past 4096 bytes -/

/-- Attributes of the 4200-byte file for the C1 scenario. -/
def c1Attr : FileAttr := ⟨2, 4200, 0, 0, 0, 0, 0, .regularFile, 0o644, 1, 0, 0, 0, 0, 0⟩

/-- The C1 state with old content `d` at inode 2: write handle 4 is freshly
opened (canonical sink, position 0). -/
def c1StOf (d : List Nat) : St :=
  { emptySt with
      inodes := upd (upd emptySt.inodes 1 (some (rootAttr 0))) 2 (some c1Attr),
      contents := upd (upd emptySt.contents 1 (some (.dir [("$.", 1, .directory)]))) 2
        (some (.file 0)),
      files := upd emptySt.files 0 (some d),
      nextFid := 1,
      writeHandles := [(4, ⟨c1Attr, false, 0, [], 0⟩)],
      nextHandle := 5 }

/-- The tail-skip loop, traced at `position = 4097` over a 4200-byte source:
pass one reads `min(4096, 4097) = 4096` bytes, does not break, and pass two
asks for another 4096 bytes of the 104 that remain. -/
theorem skipLoop_fails_4097 (d : List Nat) (hd : d.length = 4200) :
    skipLoop d 4097 0 10 = some (.error .ioErr, 4096) := by
  simp [skipLoop, hd]

/-- C1 for arbitrary content of length 4200 and buffer of length 4097. -/
theorem c1_write_step_fails_general (d b : List Nat)
    (hd : d.length = 4200) (hb : b.length = 4097) :
    (writeAll (c1StOf d) 2 0 b 4 7 10).map Prod.fst = some (.error .ioErr) := by
  have hskip := skipLoop_fails_4097 d hd
  simp [writeAll, writeSeek, writeTail, c1StOf, c1Attr, emptySt, alookup, upd,
    nodeExists, isFile, hb, hskip]

/-- C1 (code bug, evaluated at the failing input): in the roundtrip
`open(w) → write_all(0, b) → release → open(r) → read(0, |b|)` with
`|b| = 4097` over 4200 bytes of prior content, the `write_all` step itself
returns an I/O error: the tail-preservation skip loop re-initializes
`read_pos` inside the loop, reads `min(4096, position)` bytes per pass, and
exhausts the 4200-byte source on its second pass.  The subsequent read can
therefore never return `b`. -/
theorem c1_roundtrip_write_step_fails :
    (writeAll (c1StOf (List.replicate 4200 3)) 2 0 (List.replicate 4097 1) 4 7 10).map
      Prod.fst = some (.error .ioErr) :=
  c1_write_step_fails_general _ _ (List.length_replicate _ _) (List.length_replicate _ _)

/-- Attributes of the 4200-byte file for the C2 scenario. -/
def c2Attr : FileAttr := ⟨3, 4200, 0, 0, 0, 0, 0, .regularFile, 0o644, 1, 0, 0, 0, 0, 0⟩

/-- The C2 state with old content `d` at inode 3: write handle 6 is freshly
opened (canonical sink, position 0). -/
def c2StOf (d : List Nat) : St :=
  { emptySt with
      inodes := upd (upd emptySt.inodes 1 (some (rootAttr 0))) 3 (some c2Attr),
      contents := upd (upd emptySt.contents 1 (some (.dir [("$.", 1, .directory)]))) 3
        (some (.file 0)),
      files := upd emptySt.files 0 (some d),
      nextFid := 1,
      writeHandles := [(6, ⟨c2Attr, false, 0, [], 0⟩)],
      nextHandle := 7 }

/-- The tail-skip loop at `position = 4098` over a 4200-byte source fails on
its second pass exactly as at 4097. -/
theorem skipLoop_fails_4098 (d : List Nat) (hd : d.length = 4200) :
    skipLoop d 4098 0 10 = some (.error .ioErr, 4096) := by
  simp [skipLoop, hd]

/-- C2 for arbitrary old content of length 4200: writing one byte at offset
4097 errors in the tail-skip phase (after the rebuild copied the first 4097
bytes). -/
theorem c2_tail_skip_fails_general (d : List Nat) (hd : d.length = 4200) :
    (writeAll (c2StOf d) 3 4097 [7] 6 9 10).map Prod.fst = some (.error .ioErr) := by
  have hskip := skipLoop_fails_4098 d hd
  simp [writeAll, writeSeek, writeTail, rebuildCopy, commitFile, setWH, c2StOf, c2Attr,
    emptySt, alookup, aupsert, aerase, upd, nodeExists, isFile, hd, hskip]

/-- C2 (code bug, evaluated at the failing input): writing `k = 1` byte at
offset `o = 4097` with `o + k = 4098 < size = 4200` must preserve the tail
`[4098, 4200)` and skip exactly `pos` bytes before the tail copy; instead
`write_all` returns an I/O error because the skip phase re-reads
`min(4096, 4098)` bytes from the start of the old content on every pass
(`read_pos` is reset inside the loop) until `read_exact` runs off the end of
the 4200-byte source. -/
theorem c2_tail_skip_loop_fails :
    (writeAll (c2StOf (List.replicate 4200 5)) 3 4097 [7] 6 9 10).map Prod.fst
      = some (.error .ioErr) :=
  c2_tail_skip_fails_general _ (List.length_replicate _ _)

/-! ## C3: writer commit and reader invalidation -/

/-- Stale cached attributes of the read handle in the C3 counterexample
(file size 2). -/
def c3RAttr : FileAttr := ⟨2, 2, 0, 0, 0, 0, 0, .regularFile, 0o644, 1, 0, 0, 0, 0, 0⟩

/-- The writer's cached attributes after its session (file size 3). -/
def c3WAttr : FileAttr := ⟨2, 3, 0, 0, 4, 4, 0, .regularFile, 0o644, 1, 0, 0, 0, 0, 0⟩

/-- Counterexample state for C3: read handle 3 and write handle 4 are open on
inode 2; the writer wrote `[1,2,3]` through the canonical sink (no tmp
file). -/
def c3St : St :=
  { emptySt with
      inodes := upd (upd emptySt.inodes 1 (some (rootAttr 0))) 2 (some c3RAttr),
      contents := upd (upd emptySt.contents 1 (some (.dir [("$.", 1, .directory)]))) 2
        (some (.file 0)),
      files := upd emptySt.files 0 (some [10, 20]),
      nextFid := 1,
      readHandles := [(3, ⟨c3RAttr, 0, 0⟩)],
      writeHandles := [(4, ⟨c3WAttr, false, 3, [1, 2, 3], 0⟩)],
      nextHandle := 5 }

/-- Counterexample to C3 as stated: releasing write handle 4 — whose sink is
the canonical content file, not a temp file — succeeds and commits `[1,2,3]`,
but read handle 3 is *not* re-created: it keeps its stale cached attributes
(size 2 instead of the committed 3), and a subsequent read from offset 0
returns only `[1, 2]` rather than the post-commit bytes `[1, 2, 3]`.  The
source re-creates read handles only inside `if path.ends_with(".tmp")`. -/
theorem c3_canonical_sink_counterexample :
    (releaseHandle c3St 4).1 = .ok ⟨⟩ ∧
    (releaseHandle c3St 4).2.files 0 = some [1, 2, 3] ∧
    getInode (releaseHandle c3St 4).2 2 = .ok c3WAttr ∧
    alookup (releaseHandle c3St 4).2.readHandles 3 = some ⟨c3RAttr, 0, 0⟩ ∧
    c3RAttr ≠ c3WAttr ∧
    (fsRead (releaseHandle c3St 4).2 2 0 3 3 9 10).map Prod.fst = some (.ok [1, 2]) ∧
    ([1, 2] : List Nat) ≠ [1, 2, 3] := by
  refine ⟨rfl, rfl, rfl, rfl, by decide, rfl, by decide⟩

/-- The reader-invalidation loop re-creates every listed handle when each
handle's inode is live with file contents; handles outside the list are
untouched and no other state component changes. -/
theorem recreateReaders_ok (ks : List (Nat × RH)) :
    ∀ s : St,
    (∀ p, p ∈ ks → ∃ a f, s.inodes p.2.attr.ino = some a ∧
      s.contents p.2.attr.ino = some (.file f)) →
    (ks.map Prod.fst).Nodup →
    ∃ s', recreateReaders s ks = .ok s' ∧
      s'.inodes = s.inodes ∧ s'.contents = s.contents ∧ s'.files = s.files ∧
      s'.writeHandles = s.writeHandles ∧
      (∀ k', k' ∉ ks.map Prod.fst →
        alookup s'.readHandles k' = alookup s.readHandles k') ∧
      (∀ k rh, (k, rh) ∈ ks → ∀ a f, s.inodes rh.attr.ino = some a →
        s.contents rh.attr.ino = some (.file f) →
        alookup s'.readHandles k = some ⟨a, 0, f⟩) := by
  induction ks with
  | nil =>
    intro s hgood hnodup
    exact ⟨s, rfl, rfl, rfl, rfl, rfl, fun k' _ => rfl, fun k rh hmem => absurd hmem (by simp)⟩
  | cons p rest ih =>
    intro s hgood hnodup
    obtain ⟨a, f, hIa, hCf⟩ := hgood p (by simp)
    obtain ⟨k, rh⟩ := p
    simp only [List.map_cons, List.nodup_cons, List.mem_map] at hnodup
    have hcrh : createReadHandle { s with readHandles := aerase s.readHandles k } rh.attr.ino k = .ok { s with readHandles := aupsert (aerase s.readHandles k) k ⟨a, 0, f⟩ } := by
      simp [createReadHandle, hCf, hIa]
    have hrec : recreateReaders s ((k, rh) :: rest) =
        recreateReaders { s with readHandles := aupsert (aerase s.readHandles k) k ⟨a, 0, f⟩ }
          rest := by
      simp [recreateReaders, hcrh]
    obtain ⟨s', hok, hi, hc, hf, hw, hpres, hrecd⟩ :=
      ih { s with readHandles := aupsert (aerase s.readHandles k) k ⟨a, 0, f⟩ }
        (fun q hq => hgood q (by simp [hq])) hnodup.2
    refine ⟨s', by rw [hrec]; exact hok, hi, hc, hf, hw, ?_, ?_⟩
    · intro k' hk'
      simp only [List.map_cons, List.mem_cons] at hk'
      push_neg at hk'
      rw [hpres k' hk'.2]
      rw [show ({ s with readHandles := aupsert (aerase s.readHandles k) k ⟨a, 0, f⟩ } :
        St).readHandles = aupsert (aerase s.readHandles k) k ⟨a, 0, f⟩ from rfl]
      rw [alookup_aupsert_ne _ _ _ _ hk'.1, alookup_aerase_ne _ _ _ hk'.1]
    · intro k0 rh0 hmem a0 f0 hIa0 hCf0
      rcases List.mem_cons.mp hmem with hhd | htl
      · have hk0 : k0 = k := congrArg Prod.fst hhd
        have hrh0 : rh0 = rh := congrArg Prod.snd hhd
        subst hk0
        subst hrh0
        have hnotin : k0 ∉ rest.map Prod.fst := by
          intro hmem2
          obtain ⟨q, hq, hqk⟩ := List.mem_map.mp hmem2
          exact hnodup.1 ⟨q, hq, hqk⟩
        rw [hpres k0 hnotin]
        rw [show ({ s with readHandles := aupsert (aerase s.readHandles k0) k0 ⟨a, 0, f⟩ } :
          St).readHandles = aupsert (aerase s.readHandles k0) k0 ⟨a, 0, f⟩ from rfl]
        rw [alookup_aupsert_self]
        have ha0 : a0 = a := by
          have h3 := hIa.symm.trans hIa0
          exact (Option.some.inj h3).symm
        have hf0 : f0 = f := by
          have h3 := Option.some.inj (hCf.symm.trans hCf0)
          cases h3
          rfl
        rw [ha0, hf0]
      · exact hrecd k0 rh0 htl a0 f0 hIa0 hCf0

/-- Reading the full content from a fresh handle at position 0 over a
consistent file returns exactly the content. -/
theorem fsRead_zero_full (s : St) (ino k blen now fuel : Nat) (a : FileAttr) (f : Nat)
    (d : List Nat)
    (hI : s.inodes ino = some a) (hC : s.contents ino = some (.file f))
    (hF : s.files f = some d) (hR : alookup s.readHandles k = some ⟨a, 0, f⟩)
    (hK : a.kind = .regularFile) (hIno : a.ino = ino) (hlen : d.length = a.size)
    (hblen : blen = a.size) :
    (fsRead s ino 0 blen k now fuel).map Prod.fst = some (.ok d) := by
  have hNE : nodeExists s ino = true := by simp [nodeExists, hI]
  have hIF : isFile s ino = true := by simp [isFile, hC]
  by_cases h0 : a.size = 0
  · have hd : d = [] := List.length_eq_zero.mp (by omega)
    simp [fsRead, hNE, hIF, hR, hIno, hK, h0, hd]
  · have hlt : 0 < a.size := by omega
    have hn : (if 0 + blen > a.size then a.size - 0 else blen) = blen := by
      rw [if_neg (by omega)]
    have hge : ¬ (0 ≥ a.size) := by omega
    have hrf : readFinish s k ⟨a, 0, f⟩ 0 blen now
        = (.ok d, setRH s k ⟨{ a with atime := now }, 0 + blen, f⟩) := by
      simp only [readFinish, hF, hn]
      rw [if_pos (by omega : (0 : Nat) + blen ≤ d.length)]
      simp only [List.drop_zero]
      rw [List.take_of_length_le (by omega)]
    simp [fsRead, hNE, hIF, hR, hIno, hK, hge, hrf]

/-- The engine state after `release_handle`'s attribute write-back,
`finish()` and tmp-file rename, immediately before reader re-creation. -/
def commitState (s : St) (h : Nat) (wh : WH) : St :=
  { s with
      writeHandles := aerase s.writeHandles h,
      inodes := upd s.inodes wh.attr.ino (some wh.attr),
      files := upd s.files wh.sinkFid
        (some (wh.buf ++ ((s.files wh.sinkFid).getD []).drop wh.buf.length)),
      contents := upd s.contents wh.attr.ino (some (.file wh.sinkFid)) }

/-- C3 amended: when the released write handle's sink *is* a temp file, the
commit renames it over the canonical content file and every live read handle
is re-created — fresh cached attributes from the store, position 0, a fresh
decryptor over the committed content — so a subsequent full read from offset
0 through any previously opened read handle on that inode returns the
post-commit bytes. -/
theorem c3_tmp_sink_invalidates_readers
    (s : St) (h : Nat) (wh : WH)
    (hW : alookup s.writeHandles h = some wh)
    (hT : wh.tmpSink = true)
    (h0 : h ≠ 0)
    (hNR : alookup s.readHandles h = none)
    (hK : wh.attr.kind = .regularFile)
    (hLen : wh.buf.length = wh.attr.size)
    (hTmp : s.files wh.sinkFid = some [])
    (hnodup : (s.readHandles.map Prod.fst).Nodup)
    (hRH : ∀ p, p ∈ s.readHandles →
      (p.2.attr.ino = wh.attr.ino ∨
        ((s.inodes p.2.attr.ino).isSome ∧ ∃ f, s.contents p.2.attr.ino = some (.file f)))) :
    (releaseHandle s h).1 = .ok ⟨⟩ ∧
    (releaseHandle s h).2.contents wh.attr.ino = some (.file wh.sinkFid) ∧
    (releaseHandle s h).2.files wh.sinkFid = some wh.buf ∧
    (∀ k rh, (k, rh) ∈ s.readHandles →
      ∃ a f, (releaseHandle s h).2.inodes rh.attr.ino = some a ∧
        (releaseHandle s h).2.contents rh.attr.ino = some (.file f) ∧
        alookup (releaseHandle s h).2.readHandles k = some ⟨a, 0, f⟩ ∧
        (rh.attr.ino = wh.attr.ino →
          a = wh.attr ∧ f = wh.sinkFid ∧
          ∀ now2 fuel,
            (fsRead (releaseHandle s h).2 wh.attr.ino 0 wh.buf.length k now2 fuel).map
              Prod.fst = some (.ok wh.buf))) := by
  have hCSfile : (commitState s h wh).files wh.sinkFid = some wh.buf := by
    show upd s.files wh.sinkFid _ wh.sinkFid = _
    rw [upd_self, hTmp]
    simp
  have hCSread : (commitState s h wh).readHandles = s.readHandles := rfl
  have hgood : ∀ p, p ∈ (commitState s h wh).readHandles →
      ∃ a f, (commitState s h wh).inodes p.2.attr.ino = some a ∧
        (commitState s h wh).contents p.2.attr.ino = some (.file f) := by
    intro p hp
    rcases hRH p (hCSread ▸ hp) with heq | ⟨hsome, f, hcont⟩
    · refine ⟨wh.attr, wh.sinkFid, ?_, ?_⟩
      · show upd s.inodes wh.attr.ino _ _ = _
        rw [heq, upd_self]
      · show upd s.contents wh.attr.ino _ _ = _
        rw [heq, upd_self]
    · by_cases hio : p.2.attr.ino = wh.attr.ino
      · refine ⟨wh.attr, wh.sinkFid, ?_, ?_⟩
        · show upd s.inodes wh.attr.ino _ _ = _
          rw [hio, upd_self]
        · show upd s.contents wh.attr.ino _ _ = _
          rw [hio, upd_self]
      · obtain ⟨a, ha⟩ := Option.isSome_iff_exists.mp hsome
        refine ⟨a, f, ?_, ?_⟩
        · show upd s.inodes wh.attr.ino _ _ = _
          rw [upd_ne _ _ _ _ hio, ha]
        · show upd s.contents wh.attr.ino _ _ = _
          rw [upd_ne _ _ _ _ hio, hcont]
  obtain ⟨s6, hrec, hi6, hc6, hf6, hw6, hpres6, hrecd6⟩ :=
    recreateReaders_ok (commitState s h wh).readHandles (commitState s h wh) hgood
      (by rw [hCSread]; exact hnodup)
  have hrel : releaseHandle s h = (.ok ⟨⟩, s6) := by
    have hbody : releaseHandle s h =
        (match recreateReaders (commitState s h wh) (commitState s h wh).readHandles with
         | .error e => (.error e, commitState s h wh)
         | .ok s6 => ((.ok ⟨⟩ : Except FsError Unit), s6)) := by
      rw [releaseHandle, if_neg h0]
      simp only [hNR, hW, hT, if_true]
      rfl
    rw [hbody, hrec]
  have hCino : s6.contents wh.attr.ino = some (.file wh.sinkFid) := by
    rw [hc6]
    show upd s.contents wh.attr.ino _ _ = _
    rw [upd_self]
  refine ⟨by rw [hrel], by rw [hrel]; exact hCino, by rw [hrel]; rw [hf6]; exact hCSfile, ?_⟩
  intro k rh hmem
  obtain ⟨a, f, hIa, hCf⟩ := hgood (k, rh) (hCSread ▸ hmem)
  have hlook : alookup s6.readHandles k = some ⟨a, 0, f⟩ :=
    hrecd6 k rh (hCSread ▸ hmem) a f hIa hCf
  refine ⟨a, f, by rw [hrel]; rw [hi6]; exact hIa, by rw [hrel]; rw [hc6]; exact hCf,
    by rw [hrel]; exact hlook, ?_⟩
  intro hio
  have ha : a = wh.attr := by
    have : (commitState s h wh).inodes rh.attr.ino = some wh.attr := by
      show upd s.inodes wh.attr.ino _ _ = _
      rw [hio, upd_self]
    exact Option.some.inj (hIa.symm.trans this)
  have hf : f = wh.sinkFid := by
    have : (commitState s h wh).contents rh.attr.ino = some (.file wh.sinkFid) := by
      show upd s.contents wh.attr.ino _ _ = _
      rw [hio, upd_self]
    have h2 := hCf.symm.trans this
    cases h2
    rfl
  refine ⟨ha, hf, ?_⟩
  intro now2 fuel
  rw [hrel]
  exact fsRead_zero_full s6 wh.attr.ino k wh.buf.length now2 fuel wh.attr wh.sinkFid wh.buf
    (by rw [hi6]; show upd s.inodes wh.attr.ino _ _ = _; rw [upd_self])
    (by rw [hc6]; show upd s.contents wh.attr.ino _ _ = _; rw [upd_self])
    (by rw [hf6]; exact hCSfile)
    (by rw [← ha, ← hf]; exact hlook)
    hK rfl hLen hLen

/-- Stored attributes of inode 2 before the writer's commit in the C3
witness. -/
def c3wSAttr : FileAttr := ⟨2, 1, 0, 0, 0, 0, 0, .regularFile, 0o644, 1, 0, 0, 0, 0, 0⟩

/-- The writer's cached attributes in the C3 witness (one byte written). -/
def c3wWAttr : FileAttr := ⟨2, 1, 0, 0, 6, 6, 0, .regularFile, 0o644, 1, 0, 0, 0, 0, 0⟩

/-- Concrete state for the C3 witness: read handle 3 over the old canonical
file (fid 0), write handle 4 over tmp file fid 1 with buffered byte `[7]`. -/
def c3wSt : St :=
  { emptySt with
      inodes := upd (upd emptySt.inodes 1 (some (rootAttr 0))) 2 (some c3wSAttr),
      contents := upd (upd emptySt.contents 1 (some (.dir [("$.", 1, .directory)]))) 2
        (some (.file 0)),
      files := upd (upd emptySt.files 0 (some [9])) 1 (some []),
      nextFid := 2,
      readHandles := [(3, ⟨c3wSAttr, 0, 0⟩)],
      writeHandles := [(4, ⟨c3wWAttr, true, 1, [7], 1⟩)],
      nextHandle := 5 }

/-- Witness for the amended C3: releasing tmp-sink write handle 4 succeeds
and the previously opened read handle 3 then reads the committed byte `[7]`
from offset 0. -/
theorem c3_tmp_sink_invalidates_readers_witness :
    (releaseHandle c3wSt 4).1 = .ok ⟨⟩ ∧
    (fsRead (releaseHandle c3wSt 4).2 2 0 1 3 0 1).map Prod.fst = some (.ok [7]) := by
  have H := c3_tmp_sink_invalidates_readers c3wSt 4 ⟨c3wWAttr, true, 1, [7], 1⟩
    (by simp [c3wSt, alookup]) rfl (by decide) (by simp [c3wSt, alookup])
    (by decide) (by decide) (by simp [c3wSt, emptySt, upd]) (by simp [c3wSt])
    (by intro p hp; simp [c3wSt] at hp; rw [hp]; left; rfl)
  obtain ⟨a, f, _, _, _, himp⟩ := H.2.2.2 3 ⟨c3wSAttr, 0, 0⟩ (by simp [c3wSt])
  obtain ⟨_, _, hread⟩ := himp (by rfl)
  exact ⟨H.1, hread 0 1⟩

/-! ## C5: rename timestamps are never flushed -/

/-- Attributes of the moved file for the C5 scenario (all times 5). -/
def c5FileAttr : FileAttr := ⟨8, 0, 0, 5, 5, 5, 5, .regularFile, 0o644, 1, 0, 0, 0, 0, 0⟩

/-- Root attributes for the C5 scenario (mtime = ctime = 5). -/
def c5RootAttr : FileAttr := ⟨1, 0, 0, 5, 5, 5, 5, .directory, 0o755, 2, 0, 0, 0, 0, 0⟩

/-- Concrete state for C5: root (1) contains file "f" (8). -/
def c5St : St :=
  { emptySt with
      inodes := upd (upd emptySt.inodes 1 (some c5RootAttr)) 8 (some c5FileAttr),
      contents := upd (upd emptySt.contents 1
        (some (.dir [("$.", 1, .directory), ("f", 8, .regularFile)]))) 8 (some (.file 0)),
      files := upd emptySt.files 0 (some []) }

/-- C5 (code bug, evaluated at the failing input): the successful non-no-op
`rename(1, "f", 1, "g")` at wall clock 50 moves the entry, but the parent's
`mtime`/`ctime` and the moved inode's `ctime` in the inode store keep their
old value 5: the source computes the updates into locals and never calls
`write_inode` on them. -/
theorem c5_rename_timestamps_not_flushed :
    (rename c5St 1 "f" 1 "g" 50).1 = .ok ⟨⟩ ∧
    getInode (rename c5St 1 "f" 1 "g" 50).2 1 = .ok c5RootAttr ∧
    getInode (rename c5St 1 "f" 1 "g" 50).2 8 = .ok c5FileAttr ∧
    findByName (rename c5St 1 "f" 1 "g" 50).2 1 "g" = .ok (some c5FileAttr) ∧
    c5RootAttr.mtime = 5 ∧ c5RootAttr.ctime = 5 ∧ c5FileAttr.ctime = 5 := by
  refine ⟨?_, ?_, ?_, ?_, rfl, rfl, rfl⟩ <;> rfl

/-! ## C6: hole fill diverges on an empty file -/

/-- When `min(offset, attr.size) = 0` but `offset > 0`, the rebuild copy loop
of `write_all` computes `read_len = 0` on every pass and its `break` is
unreachable (it sits inside `if read_len > 0`): no fuel makes it return. -/
theorem rebuildCopy_zero_diverges (d : List Nat) (offset attrSize : Nat)
    (hob : min offset attrSize = 0) :
    ∀ fuel posRead buf position, rebuildCopy d offset attrSize posRead buf position fuel = none := by
  intro fuel
  induction fuel with
  | zero =>
    intro posRead buf position
    simp [rebuildCopy]
  | succ n ih =>
    intro posRead buf position
    simp only [rebuildCopy, hob]
    rw [if_pos (by omega : posRead + 4096 > 0)]
    rw [if_neg (by omega : ¬ 0 - posRead > 0)]
    exact ih posRead buf position

/-- Attributes of the empty file for the C6 scenario. -/
def c6Attr : FileAttr := ⟨2, 0, 0, 0, 0, 0, 0, .regularFile, 0o644, 1, 0, 0, 0, 0, 0⟩

/-- Concrete state for C6: inode 2 is an empty regular file with live write
handle 4 at position 0. -/
def c6St : St :=
  { emptySt with
      inodes := upd (upd emptySt.inodes 1 (some (rootAttr 0))) 2 (some c6Attr),
      contents := upd (upd emptySt.contents 1 (some (.dir [("$.", 1, .directory)]))) 2
        (some (.file 0)),
      files := upd emptySt.files 0 (some []),
      nextFid := 1,
      writeHandles := [(4, ⟨c6Attr, false, 0, [], 0⟩)],
      nextHandle := 5 }

/-- C6 (code bug, evaluated at the failing input): `write_all` of one byte at
offset 4 on an empty file (spec scenario S3) never returns — the rebuild copy
loop spins with `read_len = 0` — so the gap is never zero-filled and the size
never becomes `max(prev_size, offset + len) = 5`. -/
theorem c6_hole_fill_on_empty_file_diverges :
    ∀ fuel, writeAll c6St 2 4 [9] 4 7 fuel = none := by
  intro fuel
  have hrc : rebuildCopy [] 4 0 0 [] 0 fuel = none :=
    rebuildCopy_zero_diverges [] 4 0 (by decide) fuel 0 [] 0
  simp [writeAll, writeSeek, c6St, c6Attr, emptySt, alookup, commitFile, upd, aerase,
    setWH, nodeExists, isFile, hrc]

/-- Concrete state for the C7 witness: inode 2 holds 5 bytes, read handle 3
is positioned at 4 (past the requested offset 1, forcing a restart). -/
def c7St : St :=
  { emptySt with
      inodes := upd emptySt.inodes 2 (some ⟨2, 5, 0, 0, 0, 0, 0, .regularFile, 0o644, 1, 0, 0, 0, 0, 0⟩),
      contents := upd emptySt.contents 2 (some (.file 0)),
      files := upd emptySt.files 0 (some [10, 11, 12, 13, 14]),
      readHandles := [(3, ⟨⟨2, 5, 0, 0, 0, 0, 0, .regularFile, 0o644, 1, 0, 0, 0, 0, 0⟩, 4, 0⟩)] }

/-- Witness for C7: reading 9 bytes at offset 1 of the 5-byte file returns
`min 9 (5 - 1) = 4` bytes. -/
theorem c7_read_return_count_witness :
    ∃ bs s', fsRead c7St 2 1 9 3 7 50 = some (.ok bs, s') ∧ bs.length = 4 := by
  obtain ⟨bs, s', heq, hlen⟩ := c7_read_return_count c7St 2 1 9 3 7 50
    ⟨2, 5, 0, 0, 0, 0, 0, .regularFile, 0o644, 1, 0, 0, 0, 0, 0⟩ 0 4 [10, 11, 12, 13, 14]
    (by simp [c7St, emptySt]) (by simp [c7St, emptySt]) (by simp [c7St, emptySt])
    (by decide) (by simp [c7St, alookup]) (by decide) (by decide) (by omega)
  exact ⟨bs, s', heq, by simpa using hlen⟩

/-! ## C4: the directory skeleton invariant -/

/-- A caller-supplied name that is none of the reserved on-disk names
`$.`/`$..` nor the synthetic `.`/`..`. -/
def regName (n : String) : Prop :=
  n ≠ "$." ∧ n ≠ "$.." ∧ n ≠ "." ∧ n ≠ ".."

/-- The directory-skeleton invariant (amended form).  `skel` is the claim
proper: every live directory inode carries a `$.` entry pointing to itself
and — except for the root, which `ensure_root_exists` leaves without `$..` —
a `$..` entry pointing to its parent (tracked by the `parentOf` ghost).  The
remaining fields are the consistency facts the preservation proof rides on:
liveness of content objects, no non-reserved entry targets the root, the
synthetic names are never stored literally (`..` can be, at the root only),
content kind matches inode kind, inode records sit under their own number,
and directory listings have no duplicate names. -/
structure Inv (s : St) : Prop where
  clean : ∀ i, s.inodes i = none → s.contents i = none
  skel : ∀ i a, s.inodes i = some a → a.kind = .directory →
    ∃ es, s.contents i = some (.dir es) ∧
      lookupE es "$." = some (i, .directory) ∧
      (i = 1 → lookupE es "$.." = none) ∧
      (i ≠ 1 → ∃ p, s.parentOf i = some p ∧ lookupE es "$.." = some (p, .directory))
  noRoot : ∀ i es, s.contents i = some (.dir es) →
    ∀ k v, lookupE es k = some v → k ≠ "$." → k ≠ "$.." → v.1 ≠ 1
  noDot : ∀ i es, s.contents i = some (.dir es) → lookupE es "." = none
  noDotDot : ∀ i es, s.contents i = some (.dir es) → i ≠ 1 → lookupE es ".." = none
  dirKind : ∀ i es, s.contents i = some (.dir es) →
    ∃ a, s.inodes i = some a ∧ a.kind = .directory
  fileKind : ∀ i a, s.inodes i = some a → a.kind = .regularFile →
    ∃ fid, s.contents i = some (.file fid)
  inoKey : ∀ i a, s.inodes i = some a → a.ino = i
  nodupKeys : ∀ i es, s.contents i = some (.dir es) → (es.map Prod.fst).Nodup

theorem mem_mapFst_upsertE (es : Entries) (k : String) (v : Nat × FType) (x : String) :
    x ∈ (upsertE es k v).map Prod.fst ↔ x = k ∨ x ∈ es.map Prod.fst := by
  induction es with
  | nil => simp [upsertE]
  | cons hd tl ih =>
    by_cases h1 : hd.1 = k
    · simp only [upsertE, h1, if_pos]
      simp [h1]
    · simp only [upsertE, h1, if_neg, ne_eq, not_false_iff]
      simp [ih]
      tauto

theorem mapFst_upsertE_nodup (es : Entries) (k : String) (v : Nat × FType)
    (h : (es.map Prod.fst).Nodup) : ((upsertE es k v).map Prod.fst).Nodup := by
  induction es with
  | nil => simp [upsertE]
  | cons hd tl ih =>
    simp only [List.map_cons, List.nodup_cons] at h
    by_cases h1 : hd.1 = k
    · simp only [upsertE, h1, if_pos]
      simp only [List.map_cons, List.nodup_cons]
      exact ⟨h1 ▸ h.1, h.2⟩
    · simp only [upsertE, h1, if_neg, ne_eq, not_false_iff]
      simp only [List.map_cons, List.nodup_cons]
      refine ⟨?_, ih h.2⟩
      intro hmem
      rcases (mem_mapFst_upsertE tl k v hd.1).mp hmem with heq | hmem2
      · exact h1 heq
      · exact h.1 hmem2

theorem mem_mapFst_eraseE (es : Entries) (k x : String)
    (h : x ∈ (eraseE es k).map Prod.fst) : x ∈ es.map Prod.fst := by
  induction es with
  | nil => simp [eraseE] at h
  | cons hd tl ih =>
    by_cases h1 : hd.1 = k
    · rw [eraseE, if_pos h1] at h
      simp [List.mem_cons.mpr (Or.inr h)]
    · rw [eraseE, if_neg h1] at h
      simp only [List.map_cons, List.mem_cons] at h ⊢
      rcases h with heq | hmem
      · exact Or.inl heq
      · exact Or.inr (ih hmem)

theorem mapFst_eraseE_nodup (es : Entries) (k : String)
    (h : (es.map Prod.fst).Nodup) : ((eraseE es k).map Prod.fst).Nodup := by
  induction es with
  | nil => simp [eraseE]
  | cons hd tl ih =>
    simp only [List.map_cons, List.nodup_cons] at h
    by_cases h1 : hd.1 = k
    · rw [eraseE, if_pos h1]
      exact h.2
    · rw [eraseE, if_neg h1]
      simp only [List.map_cons, List.nodup_cons]
      exact ⟨fun hmem => h.1 (mem_mapFst_eraseE tl k hd.1 hmem), ih h.2⟩

theorem lookupE_mem (es : Entries) (k : String) (v : Nat × FType)
    (h : lookupE es k = some v) : k ∈ es.map Prod.fst := by
  induction es with
  | nil => simp [lookupE] at h
  | cons hd tl ih =>
    by_cases h1 : hd.1 = k
    · simp [h1]
    · rw [lookupE, if_neg h1] at h
      simp [ih h]

theorem lookupE_upsertE_cases (es : Entries) (k k' : String) (v w : Nat × FType)
    (h : lookupE (upsertE es k v) k' = some w) :
    (k' = k ∧ w = v) ∨ (k' ≠ k ∧ lookupE es k' = some w) := by
  by_cases hk : k' = k
  · subst hk
    rw [lookupE_upsertE_self] at h
    exact Or.inl ⟨rfl, (Option.some.inj h).symm⟩
  · rw [lookupE_upsertE_ne es k k' v hk] at h
    exact Or.inr ⟨hk, h⟩

theorem lookupE_eraseE_none_of_none (es : Entries) (k x : String)
    (h : lookupE es x = none) : lookupE (eraseE es k) x = none := by
  induction es with
  | nil => simp [eraseE, lookupE]
  | cons hd tl ih =>
    by_cases h2 : hd.1 = x
    · rw [lookupE, if_pos h2] at h
      exact absurd h (by simp)
    · rw [lookupE, if_neg h2] at h
      by_cases h1 : hd.1 = k
      · rw [eraseE, if_pos h1]
        exact h
      · rw [eraseE, if_neg h1, lookupE, if_neg h2]
        exact ih h

theorem lookupE_eraseE_some (es : Entries) (k k' : String) (w : Nat × FType)
    (hnd : (es.map Prod.fst).Nodup)
    (h : lookupE (eraseE es k) k' = some w) : lookupE es k' = some w := by
  by_cases hk : k' = k
  · subst hk
    rw [lookupE_eraseE_self es k' hnd] at h
    exact absurd h (by simp)
  · rw [lookupE_eraseE_ne es k k' hk] at h
    exact h

/-- `Inv` only reads `inodes`, `contents` and `parentOf`. -/
theorem inv_fields (s s' : St) (hi : s'.inodes = s.inodes) (hc : s'.contents = s.contents)
    (hp : s'.parentOf = s.parentOf) (h : Inv s) : Inv s' := by
  refine ⟨?_, ?_, ?_, ?_, ?_, ?_, ?_, ?_, ?_⟩
  · rw [hi, hc]; exact h.clean
  · rw [hi, hc, hp]; exact h.skel
  · rw [hc]; exact h.noRoot
  · rw [hc]; exact h.noDot
  · rw [hc]; exact h.noDotDot
  · rw [hc, hi]; exact h.dirKind
  · rw [hi, hc]; exact h.fileKind
  · rw [hi]; exact h.inoKey
  · rw [hc]; exact h.nodupKeys

theorem createReadHandle_fields (s : St) (ino h : Nat) (s' : St)
    (heq : createReadHandle s ino h = .ok s') :
    s'.inodes = s.inodes ∧ s'.contents = s.contents ∧ s'.parentOf = s.parentOf := by
  unfold createReadHandle at heq
  split at heq
  · split at heq
    · injection heq with h2
      subst h2
      exact ⟨rfl, rfl, rfl⟩
    · cases heq
  · cases heq

theorem createWriteHandle_fields (s : St) (ino h : Nat) (s' : St)
    (heq : createWriteHandle s ino h = .ok s') :
    s'.inodes = s.inodes ∧ s'.contents = s.contents ∧ s'.parentOf = s.parentOf := by
  unfold createWriteHandle at heq
  split at heq
  · split at heq
    · injection heq with h2
      subst h2
      exact ⟨rfl, rfl, rfl⟩
    · cases heq
  · cases heq

theorem fsOpenRead_fields (s : St) (ino : Nat) (rd : Bool) (r : Except FsError Nat × St)
    (heq : fsOpenRead s ino rd = r) :
    r.2.inodes = s.inodes ∧ r.2.contents = s.contents ∧ r.2.parentOf = s.parentOf := by
  unfold fsOpenRead at heq
  cases rd with
  | false =>
    rw [if_neg (by simp)] at heq
    cases heq
    exact ⟨rfl, rfl, rfl⟩
  | true =>
    rw [if_pos rfl] at heq
    rcases hcr : createReadHandle { s with nextHandle := s.nextHandle + 1 } ino s.nextHandle
      with e | s2
    · rw [hcr] at heq
      cases heq
      exact ⟨rfl, rfl, rfl⟩
    · rw [hcr] at heq
      cases heq
      obtain ⟨g1, g2, g3⟩ := createReadHandle_fields _ _ _ _ hcr
      exact ⟨g1, g2, g3⟩

theorem fsOpenWrite_fields (s1 : St) (ino h : Nat) (wr : Bool) (r : Except FsError Nat × St)
    (heq : fsOpenWrite s1 ino h wr = r) :
    r.2.inodes = s1.inodes ∧ r.2.contents = s1.contents ∧ r.2.parentOf = s1.parentOf := by
  unfold fsOpenWrite at heq
  cases wr with
  | false =>
    rw [if_neg (by simp)] at heq
    cases heq
    exact ⟨rfl, rfl, rfl⟩
  | true =>
    rw [if_pos rfl] at heq
    by_cases hsome : (alookup s1.writeHandles h).isSome = true
    · rw [if_pos hsome] at heq
      cases heq
      exact ⟨rfl, rfl, rfl⟩
    · rw [if_neg hsome] at heq
      rcases hcw : createWriteHandle { s1 with nextHandle := s1.nextHandle + 1 } ino
        s1.nextHandle with e | s3
      · rw [hcw] at heq
        cases heq
        exact ⟨rfl, rfl, rfl⟩
      · rw [hcw] at heq
        cases heq
        obtain ⟨g1, g2, g3⟩ := createWriteHandle_fields _ _ _ _ hcw
        exact ⟨g1, g2, g3⟩

theorem fsOpen_fields (s : St) (ino : Nat) (rd wr : Bool) :
    (fsOpen s ino rd wr).2.inodes = s.inodes ∧ (fsOpen s ino rd wr).2.contents = s.contents ∧
    (fsOpen s ino rd wr).2.parentOf = s.parentOf := by
  suffices h : ∀ r : Except FsError Nat × St, fsOpen s ino rd wr = r →
      r.2.inodes = s.inodes ∧ r.2.contents = s.contents ∧ r.2.parentOf = s.parentOf from
    h _ rfl
  intro r heq
  unfold fsOpen at heq
  split at heq
  · cases heq
    exact ⟨rfl, rfl, rfl⟩
  · split at heq
    · cases heq
      exact ⟨rfl, rfl, rfl⟩
    · split at heq
      · rename_i e s1 hr1
        cases heq
        exact fsOpenRead_fields s ino rd _ hr1
      · rename_i h1 s1 hr1
        obtain ⟨g1, g2, g3⟩ := fsOpenRead_fields s ino rd _ hr1
        obtain ⟨f1, f2, f3⟩ := fsOpenWrite_fields s1 ino h1 wr _ heq
        exact ⟨f1.trans g1, f2.trans g2, f3.trans g3⟩

/-- `write_inode` of an attribute whose kind agrees with the stored record
preserves the invariant. -/
theorem inv_writeInode (s : St) (a0 old : FileAttr)
    (hold : s.inodes a0.ino = some old) (hkind : a0.kind = old.kind)
    (h : Inv s) : Inv (writeInode s a0) := by
  have hIno : (writeInode s a0).inodes = upd s.inodes a0.ino (some a0) := rfl
  have hCon : (writeInode s a0).contents = s.contents := rfl
  have hPar : (writeInode s a0).parentOf = s.parentOf := rfl
  refine ⟨?_, ?_, ?_, ?_, ?_, ?_, ?_, ?_, ?_⟩
  · intro i hi
    rw [hIno] at hi
    rw [hCon]
    by_cases hia : i = a0.ino
    · rw [hia, upd_self] at hi
      cases hi
    · rw [upd_ne _ _ _ _ hia] at hi
      exact h.clean i hi
  · intro i a hsome hdir
    rw [hIno] at hsome
    rw [hCon, hPar]
    by_cases hia : i = a0.ino
    · subst hia
      rw [upd_self] at hsome
      cases hsome
      exact h.skel a0.ino old hold (by rw [← hkind]; exact hdir)
    · rw [upd_ne _ _ _ _ hia] at hsome
      exact h.skel i a hsome hdir
  · rw [hCon]; exact h.noRoot
  · rw [hCon]; exact h.noDot
  · rw [hCon]; exact h.noDotDot
  · intro i es hc
    rw [hCon] at hc
    rw [hIno]
    obtain ⟨a, ha, hk⟩ := h.dirKind i es hc
    by_cases hia : i = a0.ino
    · subst hia
      refine ⟨a0, upd_self _ _ _, ?_⟩
      rw [hold] at ha
      cases ha
      rw [hkind]
      exact hk
    · exact ⟨a, by rw [upd_ne _ _ _ _ hia]; exact ha, hk⟩
  · intro i a hsome hfile
    rw [hIno] at hsome
    rw [hCon]
    by_cases hia : i = a0.ino
    · subst hia
      rw [upd_self] at hsome
      cases hsome
      exact h.fileKind a0.ino old hold (by rw [← hkind]; exact hfile)
    · rw [upd_ne _ _ _ _ hia] at hsome
      exact h.fileKind i a hsome hfile
  · intro i a hsome
    rw [hIno] at hsome
    by_cases hia : i = a0.ino
    · subst hia
      rw [upd_self] at hsome
      cases hsome
      rfl
    · rw [upd_ne _ _ _ _ hia] at hsome
      exact h.inoKey i a hsome
  · rw [hCon]; exact h.nodupKeys

/-- Inserting a directory entry under a non-reserved, non-synthetic name not
targeting the root preserves the invariant. -/
theorem inv_insert (s s' : St) (p : Nat) (k : String) (v : Nat × FType)
    (hk1 : k ≠ "$.") (hk2 : k ≠ "$..") (hk3 : k ≠ ".") (hk4 : k ≠ "..")
    (hv : v.1 ≠ 1)
    (heq : insertDirectoryEntry s p k v = .ok s')
    (h : Inv s) : Inv s' := by
  unfold insertDirectoryEntry at heq
  split at heq
  case _ es hes =>
    injection heq with h2
    have hIno : s'.inodes = s.inodes := (congrArg St.inodes h2).symm
    have hCon : s'.contents = upd s.contents p (some (.dir (upsertE es k v))) :=
      (congrArg St.contents h2).symm
    have hPar : s'.parentOf = s.parentOf := (congrArg St.parentOf h2).symm
    obtain ⟨pa, hpa, hpak⟩ := h.dirKind p es hes
    refine ⟨?_, ?_, ?_, ?_, ?_, ?_, ?_, ?_, ?_⟩
    · intro i hi
      rw [hIno] at hi
      rw [hCon]
      by_cases hip : i = p
      · rw [hip, hpa] at hi
        cases hi
      · rw [upd_ne _ _ _ _ hip]
        exact h.clean i hi
    · intro i a hsome hdir
      rw [hIno] at hsome
      rw [hCon, hPar]
      obtain ⟨es0, hc0, hdot, hroot, hpar⟩ := h.skel i a hsome hdir
      by_cases hip : i = p
      · subst hip
        rw [hes] at hc0
        have h4 : es0 = es := by
          have h5 := Option.some.inj hc0
          cases h5
          rfl
        subst h4
        refine ⟨upsertE es0 k v, upd_self _ _ _, ?_, ?_, ?_⟩
        · rw [lookupE_upsertE_ne _ _ _ _ (Ne.symm hk1)]
          exact hdot
        · intro h1
          rw [lookupE_upsertE_ne _ _ _ _ (Ne.symm hk2)]
          exact hroot h1
        · intro h1
          obtain ⟨q, hq1, hq2⟩ := hpar h1
          exact ⟨q, hq1, by rw [lookupE_upsertE_ne _ _ _ _ (Ne.symm hk2)]; exact hq2⟩
      · exact ⟨es0, by rw [upd_ne _ _ _ _ hip]; exact hc0, hdot, hroot, hpar⟩
    · intro i es2 hc k' w hlk hk1' hk2'
      rw [hCon] at hc
      by_cases hip : i = p
      · rw [hip, upd_self] at hc
        cases hc
        rcases lookupE_upsertE_cases es k k' v w hlk with ⟨hkk, hw⟩ | ⟨hkk, hold⟩
        · rw [hw]
          exact hv
        · exact h.noRoot p es hes k' w hold hk1' hk2'
      · rw [upd_ne _ _ _ _ hip] at hc
        exact h.noRoot i es2 hc k' w hlk hk1' hk2'
    · intro i es2 hc
      rw [hCon] at hc
      by_cases hip : i = p
      · rw [hip, upd_self] at hc
        cases hc
        rw [lookupE_upsertE_ne _ _ _ _ (Ne.symm hk3)]
        exact h.noDot p es hes
      · rw [upd_ne _ _ _ _ hip] at hc
        exact h.noDot i es2 hc
    · intro i es2 hc hi1
      rw [hCon] at hc
      by_cases hip : i = p
      · rw [hip, upd_self] at hc
        cases hc
        rw [lookupE_upsertE_ne _ _ _ _ (Ne.symm hk4)]
        exact h.noDotDot p es hes (hip ▸ hi1)
      · rw [upd_ne _ _ _ _ hip] at hc
        exact h.noDotDot i es2 hc hi1
    · intro i es2 hc
      rw [hCon] at hc
      rw [hIno]
      by_cases hip : i = p
      · subst hip
        exact ⟨pa, hpa, hpak⟩
      · rw [upd_ne _ _ _ _ hip] at hc
        exact h.dirKind i es2 hc
    · intro i a hsome hfile
      rw [hIno] at hsome
      rw [hCon]
      obtain ⟨fid, hfid⟩ := h.fileKind i a hsome hfile
      have hip : i ≠ p := by
        intro hip
        rw [hip, hes] at hfid
        cases hfid
      exact ⟨fid, by rw [upd_ne _ _ _ _ hip]; exact hfid⟩
    · intro i a hsome
      rw [hIno] at hsome
      exact h.inoKey i a hsome
    · intro i es2 hc
      rw [hCon] at hc
      by_cases hip : i = p
      · rw [hip, upd_self] at hc
        cases hc
        exact mapFst_upsertE_nodup es k v (h.nodupKeys p es hes)
      · rw [upd_ne _ _ _ _ hip] at hc
        exact h.nodupKeys i es2 hc
  all_goals cases heq

/-- Rewriting the `$..` entry of a live non-root directory `c` to point at
`q`, together with the matching ghost update, preserves the invariant. -/
theorem inv_insert_dotdot (s s' : St) (c q : Nat)
    (hc1 : c ≠ 1)
    (heq : insertDirectoryEntry s c "$.." (q, .directory) = .ok s')
    (h : Inv s) :
    Inv { s' with parentOf := upd s'.parentOf c (some q) } := by
  unfold insertDirectoryEntry at heq
  split at heq
  case _ es hes =>
    injection heq with h2
    have hIno : ({ s' with parentOf := upd s'.parentOf c (some q) } : St).inodes
        = s.inodes := (congrArg St.inodes h2).symm
    have hCon : ({ s' with parentOf := upd s'.parentOf c (some q) } : St).contents
        = upd s.contents c (some (.dir (upsertE es "$.." (q, .directory)))) :=
      (congrArg St.contents h2).symm
    have hp0 : s'.parentOf = s.parentOf := (congrArg St.parentOf h2).symm
    have hPar : ({ s' with parentOf := upd s'.parentOf c (some q) } : St).parentOf
        = upd s.parentOf c (some q) := by
      show upd s'.parentOf c (some q) = upd s.parentOf c (some q)
      rw [hp0]
    obtain ⟨ca, hca, hcak⟩ := h.dirKind c es hes
    refine ⟨?_, ?_, ?_, ?_, ?_, ?_, ?_, ?_, ?_⟩
    · intro i hi
      rw [hIno] at hi
      rw [hCon]
      by_cases hic : i = c
      · rw [hic, hca] at hi
        cases hi
      · rw [upd_ne _ _ _ _ hic]
        exact h.clean i hi
    · intro i a hsome hdir
      rw [hIno] at hsome
      rw [hCon, hPar]
      obtain ⟨es0, hc0, hdot, hroot, hpar⟩ := h.skel i a hsome hdir
      by_cases hic : i = c
      · subst hic
        rw [hes] at hc0
        have h4 : es0 = es := by
          have h5 := Option.some.inj hc0
          cases h5
          rfl
        subst h4
        refine ⟨upsertE es0 "$.." (q, .directory), upd_self _ _ _, ?_, ?_, ?_⟩
        · rw [lookupE_upsertE_ne _ _ _ _ (by decide)]
          exact hdot
        · intro h1
          exact absurd h1 hc1
        · intro h1
          exact ⟨q, upd_self _ _ _, lookupE_upsertE_self _ _ _⟩
      · refine ⟨es0, by rw [upd_ne _ _ _ _ hic]; exact hc0, hdot, hroot, ?_⟩
        intro h1
        obtain ⟨p0, hp1, hp2⟩ := hpar h1
        exact ⟨p0, by rw [upd_ne _ _ _ _ hic]; exact hp1, hp2⟩
    · intro i es2 hc k' w hlk hk1' hk2'
      rw [hCon] at hc
      by_cases hic : i = c
      · rw [hic, upd_self] at hc
        cases hc
        rcases lookupE_upsertE_cases es "$.." k' (q, .directory) w hlk with ⟨hkk, _⟩ | ⟨_, hold⟩
        · exact absurd hkk hk2'
        · exact h.noRoot c es hes k' w hold hk1' hk2'
      · rw [upd_ne _ _ _ _ hic] at hc
        exact h.noRoot i es2 hc k' w hlk hk1' hk2'
    · intro i es2 hc
      rw [hCon] at hc
      by_cases hic : i = c
      · rw [hic, upd_self] at hc
        cases hc
        rw [lookupE_upsertE_ne _ _ _ _ (by decide)]
        exact h.noDot c es hes
      · rw [upd_ne _ _ _ _ hic] at hc
        exact h.noDot i es2 hc
    · intro i es2 hc hi1
      rw [hCon] at hc
      by_cases hic : i = c
      · rw [hic, upd_self] at hc
        cases hc
        rw [lookupE_upsertE_ne _ _ _ _ (by decide)]
        exact h.noDotDot c es hes hc1
      · rw [upd_ne _ _ _ _ hic] at hc
        exact h.noDotDot i es2 hc hi1
    · intro i es2 hc
      rw [hCon] at hc
      rw [hIno]
      by_cases hic : i = c
      · subst hic
        exact ⟨ca, hca, hcak⟩
      · rw [upd_ne _ _ _ _ hic] at hc
        exact h.dirKind i es2 hc
    · intro i a hsome hfile
      rw [hIno] at hsome
      rw [hCon]
      obtain ⟨fid, hfid⟩ := h.fileKind i a hsome hfile
      have hic : i ≠ c := by
        intro hic
        rw [hic, hes] at hfid
        cases hfid
      exact ⟨fid, by rw [upd_ne _ _ _ _ hic]; exact hfid⟩
    · intro i a hsome
      rw [hIno] at hsome
      exact h.inoKey i a hsome
    · intro i es2 hc
      rw [hCon] at hc
      by_cases hic : i = c
      · rw [hic, upd_self] at hc
        cases hc
        exact mapFst_upsertE_nodup es _ _ (h.nodupKeys c es hes)
      · rw [upd_ne _ _ _ _ hic] at hc
        exact h.nodupKeys i es2 hc
  all_goals cases heq

/-- Removing a directory entry under a non-reserved name preserves the
invariant. -/
theorem inv_erase (s s' : St) (p : Nat) (k : String)
    (hk1 : k ≠ "$.") (hk2 : k ≠ "$..")
    (heq : removeDirectoryEntry s p k = .ok s')
    (h : Inv s) : Inv s' := by
  unfold removeDirectoryEntry at heq
  split at heq
  case _ es hes =>
    split at heq
    case _ v hv =>
      injection heq with h2
      have hIno : s'.inodes = s.inodes := (congrArg St.inodes h2).symm
      have hCon : s'.contents = upd s.contents p (some (.dir (eraseE es k))) :=
        (congrArg St.contents h2).symm
      have hPar : s'.parentOf = s.parentOf := (congrArg St.parentOf h2).symm
      obtain ⟨pa, hpa, hpak⟩ := h.dirKind p es hes
      refine ⟨?_, ?_, ?_, ?_, ?_, ?_, ?_, ?_, ?_⟩
      · intro i hi
        rw [hIno] at hi
        rw [hCon]
        by_cases hip : i = p
        · rw [hip, hpa] at hi
          cases hi
        · rw [upd_ne _ _ _ _ hip]
          exact h.clean i hi
      · intro i a hsome hdir
        rw [hIno] at hsome
        rw [hCon, hPar]
        obtain ⟨es0, hc0, hdot, hroot, hpar⟩ := h.skel i a hsome hdir
        by_cases hip : i = p
        · subst hip
          rw [hes] at hc0
          have h4 : es0 = es := by
            have h5 := Option.some.inj hc0
            cases h5
            rfl
          subst h4
          refine ⟨eraseE es0 k, upd_self _ _ _, ?_, ?_, ?_⟩
          · rw [lookupE_eraseE_ne _ _ _ (Ne.symm hk1)]
            exact hdot
          · intro h1
            rw [lookupE_eraseE_ne _ _ _ (Ne.symm hk2)]
            exact hroot h1
          · intro h1
            obtain ⟨q, hq1, hq2⟩ := hpar h1
            exact ⟨q, hq1, by rw [lookupE_eraseE_ne _ _ _ (Ne.symm hk2)]; exact hq2⟩
        · exact ⟨es0, by rw [upd_ne _ _ _ _ hip]; exact hc0, hdot, hroot, hpar⟩
      · intro i es2 hc k' w hlk hk1' hk2'
        rw [hCon] at hc
        by_cases hip : i = p
        · rw [hip, upd_self] at hc
          cases hc
          exact h.noRoot p es hes k' w
            (lookupE_eraseE_some es k k' w (h.nodupKeys p es hes) hlk) hk1' hk2'
        · rw [upd_ne _ _ _ _ hip] at hc
          exact h.noRoot i es2 hc k' w hlk hk1' hk2'
      · intro i es2 hc
        rw [hCon] at hc
        by_cases hip : i = p
        · rw [hip, upd_self] at hc
          cases hc
          exact lookupE_eraseE_none_of_none es k "." (h.noDot p es hes)
        · rw [upd_ne _ _ _ _ hip] at hc
          exact h.noDot i es2 hc
      · intro i es2 hc hi1
        rw [hCon] at hc
        by_cases hip : i = p
        · rw [hip, upd_self] at hc
          cases hc
          exact lookupE_eraseE_none_of_none es k ".." (h.noDotDot p es hes (hip ▸ hi1))
        · rw [upd_ne _ _ _ _ hip] at hc
          exact h.noDotDot i es2 hc hi1
      · intro i es2 hc
        rw [hCon] at hc
        rw [hIno]
        by_cases hip : i = p
        · subst hip
          exact ⟨pa, hpa, hpak⟩
        · rw [upd_ne _ _ _ _ hip] at hc
          exact h.dirKind i es2 hc
      · intro i a hsome hfile
        rw [hIno] at hsome
        rw [hCon]
        obtain ⟨fid, hfid⟩ := h.fileKind i a hsome hfile
        have hip : i ≠ p := by
          intro hip
          rw [hip, hes] at hfid
          cases hfid
        exact ⟨fid, by rw [upd_ne _ _ _ _ hip]; exact hfid⟩
      · intro i a hsome
        rw [hIno] at hsome
        exact h.inoKey i a hsome
      · intro i es2 hc
        rw [hCon] at hc
        by_cases hip : i = p
        · rw [hip, upd_self] at hc
          cases hc
          exact mapFst_eraseE_nodup es k (h.nodupKeys p es hes)
        · rw [upd_ne _ _ _ _ hip] at hc
          exact h.nodupKeys i es2 hc
    case _ =>
      cases heq
  all_goals cases heq

/-- Removing both the inode record and the content object of `d` preserves
the invariant. -/
theorem inv_delete_node (s : St) (d : Nat) (h : Inv s) :
    Inv { s with inodes := upd s.inodes d none, contents := upd s.contents d none } := by
  have hIno : ({ s with inodes := upd s.inodes d none, contents := upd s.contents d none } : St).inodes = upd s.inodes d none := rfl
  have hCon : ({ s with inodes := upd s.inodes d none, contents := upd s.contents d none } : St).contents = upd s.contents d none := rfl
  have hPar : ({ s with inodes := upd s.inodes d none, contents := upd s.contents d none } : St).parentOf = s.parentOf := rfl
  refine ⟨?_, ?_, ?_, ?_, ?_, ?_, ?_, ?_, ?_⟩
  · intro i hi
    rw [hIno] at hi
    rw [hCon]
    by_cases hid : i = d
    · rw [hid, upd_self]
    · rw [upd_ne _ _ _ _ hid] at hi
      rw [upd_ne _ _ _ _ hid]
      exact h.clean i hi
  · intro i a hsome hdir
    rw [hIno] at hsome
    rw [hCon, hPar]
    by_cases hid : i = d
    · rw [hid, upd_self] at hsome
      cases hsome
    · rw [upd_ne _ _ _ _ hid] at hsome
      obtain ⟨es0, hc0, hdot, hroot, hpar⟩ := h.skel i a hsome hdir
      exact ⟨es0, by rw [upd_ne _ _ _ _ hid]; exact hc0, hdot, hroot, hpar⟩
  · intro i es2 hc
    rw [hCon] at hc
    by_cases hid : i = d
    · rw [hid, upd_self] at hc
      cases hc
    · rw [upd_ne _ _ _ _ hid] at hc
      exact h.noRoot i es2 hc
  · intro i es2 hc
    rw [hCon] at hc
    by_cases hid : i = d
    · rw [hid, upd_self] at hc
      cases hc
    · rw [upd_ne _ _ _ _ hid] at hc
      exact h.noDot i es2 hc
  · intro i es2 hc hi1
    rw [hCon] at hc
    by_cases hid : i = d
    · rw [hid, upd_self] at hc
      cases hc
    · rw [upd_ne _ _ _ _ hid] at hc
      exact h.noDotDot i es2 hc hi1
  · intro i es2 hc
    rw [hCon] at hc
    rw [hIno]
    by_cases hid : i = d
    · rw [hid, upd_self] at hc
      cases hc
    · rw [upd_ne _ _ _ _ hid] at hc
      obtain ⟨a, ha, hk⟩ := h.dirKind i es2 hc
      exact ⟨a, by rw [upd_ne _ _ _ _ hid]; exact ha, hk⟩
  · intro i a hsome hfile
    rw [hIno] at hsome
    rw [hCon]
    by_cases hid : i = d
    · rw [hid, upd_self] at hsome
      cases hsome
    · rw [upd_ne _ _ _ _ hid] at hsome
      obtain ⟨fid, hfid⟩ := h.fileKind i a hsome hfile
      exact ⟨fid, by rw [upd_ne _ _ _ _ hid]; exact hfid⟩
  · intro i a hsome
    rw [hIno] at hsome
    by_cases hid : i = d
    · rw [hid, upd_self] at hsome
      cases hsome
    · rw [upd_ne _ _ _ _ hid] at hsome
      exact h.inoKey i a hsome
  · intro i es2 hc
    rw [hCon] at hc
    by_cases hid : i = d
    · rw [hid, upd_self] at hc
      cases hc
    · rw [upd_ne _ _ _ _ hid] at hc
      exact h.nodupKeys i es2 hc

theorem upd_upd_self {α : Type} (m : Nat → Option α) (k : Nat) (a b : Option α) :
    upd (upd m k a) k b = upd m k b := by
  funext i
  by_cases h : i = k <;> simp [upd, h]

/-- Registering a fresh inode of an unsupported kind (`create_nod`'s error
path before `Err(InvalidInodeType)`) preserves the invariant. -/
theorem inv_new_node_orphan (s t : St) (attr : FileAttr) (c : Nat)
    (hIno : t.inodes = upd s.inodes c (some attr))
    (hCon : t.contents = s.contents)
    (hPar : t.parentOf = s.parentOf)
    (hkind : attr.kind = .other) (hik : attr.ino = c)
    (hfresh : s.inodes c = none) (h : Inv s) : Inv t := by
  have hclean : s.contents c = none := h.clean c hfresh
  refine ⟨?_, ?_, ?_, ?_, ?_, ?_, ?_, ?_, ?_⟩
  · intro i hi
    rw [hIno] at hi
    rw [hCon]
    by_cases hic : i = c
    · rw [hic, upd_self] at hi
      cases hi
    · rw [upd_ne _ _ _ _ hic] at hi
      exact h.clean i hi
  · intro i a hsome hdir
    rw [hIno] at hsome
    rw [hCon, hPar]
    by_cases hic : i = c
    · rw [hic, upd_self] at hsome
      cases hsome
      rw [hkind] at hdir
      cases hdir
    · rw [upd_ne _ _ _ _ hic] at hsome
      exact h.skel i a hsome hdir
  · rw [hCon]; exact h.noRoot
  · rw [hCon]; exact h.noDot
  · rw [hCon]; exact h.noDotDot
  · intro i es hc
    rw [hCon] at hc
    rw [hIno]
    obtain ⟨a, ha, hk⟩ := h.dirKind i es hc
    have hic : i ≠ c := by
      intro hic
      rw [hic, hclean] at hc
      cases hc
    exact ⟨a, by rw [upd_ne _ _ _ _ hic]; exact ha, hk⟩
  · intro i a hsome hfile
    rw [hIno] at hsome
    rw [hCon]
    by_cases hic : i = c
    · rw [hic, upd_self] at hsome
      cases hsome
      rw [hkind] at hfile
      cases hfile
    · rw [upd_ne _ _ _ _ hic] at hsome
      exact h.fileKind i a hsome hfile
  · intro i a hsome
    rw [hIno] at hsome
    by_cases hic : i = c
    · rw [hic, upd_self] at hsome
      cases hsome
      rw [hik, hic]
    · rw [upd_ne _ _ _ _ hic] at hsome
      exact h.inoKey i a hsome
  · rw [hCon]; exact h.nodupKeys

/-- Registering a fresh regular-file inode together with its (empty) content
file preserves the invariant. -/
theorem inv_new_node_file (s t : St) (attr : FileAttr) (c fid : Nat)
    (hIno : t.inodes = upd s.inodes c (some attr))
    (hCon : t.contents = upd s.contents c (some (.file fid)))
    (hPar : t.parentOf = s.parentOf)
    (hkind : attr.kind = .regularFile) (hik : attr.ino = c)
    (h : Inv s) : Inv t := by
  refine ⟨?_, ?_, ?_, ?_, ?_, ?_, ?_, ?_, ?_⟩
  · intro i hi
    rw [hIno] at hi
    rw [hCon]
    by_cases hic : i = c
    · rw [hic, upd_self] at hi
      cases hi
    · rw [upd_ne _ _ _ _ hic] at hi
      rw [upd_ne _ _ _ _ hic]
      exact h.clean i hi
  · intro i a hsome hdir
    rw [hIno] at hsome
    rw [hCon, hPar]
    by_cases hic : i = c
    · rw [hic, upd_self] at hsome
      cases hsome
      rw [hkind] at hdir
      cases hdir
    · rw [upd_ne _ _ _ _ hic] at hsome
      obtain ⟨es0, hc0, hdot, hroot, hpar⟩ := h.skel i a hsome hdir
      exact ⟨es0, by rw [upd_ne _ _ _ _ hic]; exact hc0, hdot, hroot, hpar⟩
  · intro i es2 hc
    rw [hCon] at hc
    by_cases hic : i = c
    · rw [hic, upd_self] at hc
      cases hc
    · rw [upd_ne _ _ _ _ hic] at hc
      exact h.noRoot i es2 hc
  · intro i es2 hc
    rw [hCon] at hc
    by_cases hic : i = c
    · rw [hic, upd_self] at hc
      cases hc
    · rw [upd_ne _ _ _ _ hic] at hc
      exact h.noDot i es2 hc
  · intro i es2 hc hi1
    rw [hCon] at hc
    by_cases hic : i = c
    · rw [hic, upd_self] at hc
      cases hc
    · rw [upd_ne _ _ _ _ hic] at hc
      exact h.noDotDot i es2 hc hi1
  · intro i es2 hc
    rw [hCon] at hc
    rw [hIno]
    by_cases hic : i = c
    · rw [hic, upd_self] at hc
      cases hc
    · rw [upd_ne _ _ _ _ hic] at hc
      obtain ⟨a, ha, hk⟩ := h.dirKind i es2 hc
      exact ⟨a, by rw [upd_ne _ _ _ _ hic]; exact ha, hk⟩
  · intro i a hsome hfile
    rw [hIno] at hsome
    rw [hCon]
    by_cases hic : i = c
    · rw [hic, upd_self] at hsome
      cases hsome
      exact ⟨fid, by rw [hic, upd_self]⟩
    · rw [upd_ne _ _ _ _ hic] at hsome
      obtain ⟨fid0, hfid0⟩ := h.fileKind i a hsome hfile
      exact ⟨fid0, by rw [upd_ne _ _ _ _ hic]; exact hfid0⟩
  · intro i a hsome
    rw [hIno] at hsome
    by_cases hic : i = c
    · rw [hic, upd_self] at hsome
      cases hsome
      rw [hik, hic]
    · rw [upd_ne _ _ _ _ hic] at hsome
      exact h.inoKey i a hsome
  · intro i es2 hc
    rw [hCon] at hc
    by_cases hic : i = c
    · rw [hic, upd_self] at hc
      cases hc
    · rw [upd_ne _ _ _ _ hic] at hc
      exact h.nodupKeys i es2 hc

/-- Registering a fresh non-root directory inode together with its skeleton
contents (`$.` to itself, `$..` to the parent) and the matching ghost entry
preserves the invariant. -/
theorem inv_new_node_dir (s t : St) (attr : FileAttr) (c parent : Nat)
    (hIno : t.inodes = upd s.inodes c (some attr))
    (hCon : t.contents = upd s.contents c
      (some (.dir [("$.", (c, .directory)), ("$..", (parent, .directory))])))
    (hPar : t.parentOf = upd s.parentOf c (some parent))
    (hkind : attr.kind = .directory) (hik : attr.ino = c) (hc1 : c ≠ 1)
    (h : Inv s) : Inv t := by
  refine ⟨?_, ?_, ?_, ?_, ?_, ?_, ?_, ?_, ?_⟩
  · intro i hi
    rw [hIno] at hi
    rw [hCon]
    by_cases hic : i = c
    · rw [hic, upd_self] at hi
      cases hi
    · rw [upd_ne _ _ _ _ hic] at hi
      rw [upd_ne _ _ _ _ hic]
      exact h.clean i hi
  · intro i a hsome hdir
    rw [hIno] at hsome
    rw [hCon, hPar]
    by_cases hic : i = c
    · subst hic
      rw [upd_self] at hsome
      cases hsome
      refine ⟨_, upd_self _ _ _, by simp [lookupE], ?_, ?_⟩
      · intro h1
        exact absurd h1 hc1
      · intro h1
        exact ⟨parent, upd_self _ _ _, by simp [lookupE]⟩
    · rw [upd_ne _ _ _ _ hic] at hsome
      obtain ⟨es0, hc0, hdot, hroot, hpar⟩ := h.skel i a hsome hdir
      refine ⟨es0, by rw [upd_ne _ _ _ _ hic]; exact hc0, hdot, hroot, ?_⟩
      intro h1
      obtain ⟨q, hq1, hq2⟩ := hpar h1
      exact ⟨q, by rw [upd_ne _ _ _ _ hic]; exact hq1, hq2⟩
  · intro i es2 hc k' w hlk hk1' hk2'
    rw [hCon] at hc
    by_cases hic : i = c
    · rw [hic, upd_self] at hc
      cases hc
      have e1 : ¬ ("$." = k') := fun hh => hk1' hh.symm
      have e2 : ¬ ("$.." = k') := fun hh => hk2' hh.symm
      have hnone : lookupE [("$.", (c, FType.directory)),
          ("$..", (parent, FType.directory))] k' = none := by
        simp [lookupE, e1, e2]
      rw [hnone] at hlk
      cases hlk
    · rw [upd_ne _ _ _ _ hic] at hc
      exact h.noRoot i es2 hc k' w hlk hk1' hk2'
  · intro i es2 hc
    rw [hCon] at hc
    by_cases hic : i = c
    · rw [hic, upd_self] at hc
      cases hc
      simp [lookupE]
    · rw [upd_ne _ _ _ _ hic] at hc
      exact h.noDot i es2 hc
  · intro i es2 hc hi1
    rw [hCon] at hc
    by_cases hic : i = c
    · rw [hic, upd_self] at hc
      cases hc
      simp [lookupE]
    · rw [upd_ne _ _ _ _ hic] at hc
      exact h.noDotDot i es2 hc hi1
  · intro i es2 hc
    rw [hCon] at hc
    rw [hIno]
    by_cases hic : i = c
    · subst hic
      exact ⟨attr, upd_self _ _ _, hkind⟩
    · rw [upd_ne _ _ _ _ hic] at hc
      obtain ⟨a, ha, hk⟩ := h.dirKind i es2 hc
      exact ⟨a, by rw [upd_ne _ _ _ _ hic]; exact ha, hk⟩
  · intro i a hsome hfile
    rw [hIno] at hsome
    rw [hCon]
    by_cases hic : i = c
    · rw [hic, upd_self] at hsome
      cases hsome
      rw [hkind] at hfile
      cases hfile
    · rw [upd_ne _ _ _ _ hic] at hsome
      obtain ⟨fid0, hfid0⟩ := h.fileKind i a hsome hfile
      exact ⟨fid0, by rw [upd_ne _ _ _ _ hic]; exact hfid0⟩
  · intro i a hsome
    rw [hIno] at hsome
    by_cases hic : i = c
    · rw [hic, upd_self] at hsome
      cases hsome
      rw [hik, hic]
    · rw [upd_ne _ _ _ _ hic] at hsome
      exact h.inoKey i a hsome
  · intro i es2 hc
    rw [hCon] at hc
    by_cases hic : i = c
    · rw [hic, upd_self] at hc
      cases hc
      simp
    · rw [upd_ne _ _ _ _ hic] at hc
      exact h.nodupKeys i es2 hc

/-- The state built by `new` on a fresh data dir satisfies the invariant:
the root holds exactly its `$.` entry. -/
theorem inv_initState (now : Nat) : Inv (initState now) := by
  have hIno : (initState now).inodes
      = upd (fun _ => none) 1 (some (rootAttr now)) := rfl
  have hCon : (initState now).contents
      = upd (upd (fun _ => none) 1 (some (.dir []))) 1
          (some (.dir [("$.", (1, .directory))])) := rfl
  have hPar : (initState now).parentOf = fun _ => none := rfl
  refine ⟨?_, ?_, ?_, ?_, ?_, ?_, ?_, ?_, ?_⟩
  · intro i hi
    rw [hIno] at hi
    rw [hCon]
    by_cases h1 : i = 1
    · rw [h1, upd_self] at hi
      cases hi
    · rw [upd_ne _ _ _ _ h1, upd_ne _ _ _ _ h1]
  · intro i a hsome hdir
    rw [hIno] at hsome
    rw [hCon, hPar]
    by_cases h1 : i = 1
    · subst h1
      rw [upd_self] at hsome
      cases hsome
      refine ⟨[("$.", (1, .directory))], upd_self _ _ _, by simp [lookupE], ?_, ?_⟩
      · intro _
        simp [lookupE]
      · intro h2
        exact absurd rfl h2
    · rw [upd_ne _ _ _ _ h1] at hsome
      cases hsome
  · intro i es2 hc k' w hlk hk1' hk2'
    rw [hCon] at hc
    by_cases h1 : i = 1
    · rw [h1, upd_self] at hc
      cases hc
      have e1 : ¬ ("$." = k') := fun hh => hk1' hh.symm
      have hnone : lookupE [("$.", (1, FType.directory))] k' = none := by
        simp [lookupE, e1]
      rw [hnone] at hlk
      cases hlk
    · rw [upd_ne _ _ _ _ h1, upd_ne _ _ _ _ h1] at hc
      cases hc
  · intro i es2 hc
    rw [hCon] at hc
    by_cases h1 : i = 1
    · rw [h1, upd_self] at hc
      cases hc
      simp [lookupE]
    · rw [upd_ne _ _ _ _ h1, upd_ne _ _ _ _ h1] at hc
      cases hc
  · intro i es2 hc hi1
    rw [hCon] at hc
    by_cases h1 : i = 1
    · exact absurd h1 hi1
    · rw [upd_ne _ _ _ _ h1, upd_ne _ _ _ _ h1] at hc
      cases hc
  · intro i es2 hc
    rw [hCon] at hc
    rw [hIno]
    by_cases h1 : i = 1
    · subst h1
      exact ⟨rootAttr now, upd_self _ _ _, rfl⟩
    · rw [upd_ne _ _ _ _ h1, upd_ne _ _ _ _ h1] at hc
      cases hc
  · intro i a hsome hfile
    rw [hIno] at hsome
    by_cases h1 : i = 1
    · rw [h1, upd_self] at hsome
      cases hsome
      cases hfile
    · rw [upd_ne _ _ _ _ h1] at hsome
      cases hsome
  · intro i a hsome
    rw [hIno] at hsome
    by_cases h1 : i = 1
    · rw [h1, upd_self] at hsome
      cases hsome
      rw [h1]
      rfl
    · rw [upd_ne _ _ _ _ h1] at hsome
      cases hsome
  · intro i es2 hc
    rw [hCon] at hc
    by_cases h1 : i = 1
    · rw [h1, upd_self] at hc
      cases hc
      simp
    · rw [upd_ne _ _ _ _ h1, upd_ne _ _ _ _ h1] at hc
      cases hc

/-- In an invariant state, `find_by_name` under a non-reserved name only ever
resolves to a non-root inode stored under its own number. -/
theorem findByName_ok_some (s : St) (parent : Nat) (name : String) (attr : FileAttr)
    (h : Inv s) (hreg : regName name)
    (heq : findByName s parent name = .ok (some attr)) :
    s.inodes attr.ino = some attr ∧ attr.ino ≠ 1 := by
  obtain ⟨hr1, hr2, hr3, hr4⟩ := hreg
  have hmd : mapDots name = name := by
    unfold mapDots
    rw [if_neg hr3, if_neg hr4]
  unfold findByName at heq
  split at heq
  · cases heq
  split at heq
  · injection heq with h2
    cases h2
  split at heq
  · cases heq
  split at heq
  case _ es hes =>
    split at heq
    case _ i t hlk =>
      split at heq
      case _ a hin =>
        injection heq with h2
        injection h2 with h3
        have hin2 : s.inodes i = some attr := h3 ▸ hin
        have hne : i ≠ 1 := h.noRoot parent es hes (mapDots name) (i, t) hlk
          (by rw [hmd]; exact hr1) (by rw [hmd]; exact hr2)
        have hik : attr.ino = i := h.inoKey i attr hin2
        constructor
        · rw [hik]; exact hin2
        · rw [hik]; exact hne
      case _ => cases heq
    case _ => cases heq
  case _ => cases heq

/-- `write_inode` of a fresh attribute followed by `create_contents` lands in
an invariant state on every branch (the per-kind content creation of
`create_nod`). -/
theorem createContents_cases (s : St) (attr : FileAttr) (parent : Nat)
    (h : Inv s) (hfresh : s.inodes attr.ino = none) (hn1 : attr.ino ≠ 1) :
    Inv (createContents (writeInode s attr) attr parent).2 := by
  have hclean : s.contents attr.ino = none := h.clean attr.ino hfresh
  rcases hk : attr.kind with _ | _ | _
  · -- directory
    have hcc : createContents (writeInode s attr) attr parent =
        (.ok ⟨⟩, { writeInode s attr with
          contents := upd s.contents attr.ino
            (some (.dir [("$.", (attr.ino, .directory)),
              ("$..", (parent, .directory))])),
          parentOf := upd s.parentOf attr.ino (some parent) }) := by
      simp [createContents, hk, insertDirectoryEntry, writeInode, hclean, upsertE,
        upd_upd_self]
    rw [hcc]
    exact inv_new_node_dir s _ attr attr.ino parent rfl rfl rfl hk rfl hn1 h
  · -- regularFile
    have hcc : createContents (writeInode s attr) attr parent =
        (.ok ⟨⟩, { writeInode s attr with
          files := upd s.files s.nextFid (some []),
          contents := upd s.contents attr.ino (some (.file s.nextFid)),
          nextFid := s.nextFid + 1 }) := by
      simp [createContents, hk, writeInode, hclean]
    rw [hcc]
    exact inv_new_node_file s _ attr attr.ino s.nextFid rfl rfl rfl hk rfl h
  · -- other
    have hcc : createContents (writeInode s attr) attr parent =
        (.error .invalidInodeType, writeInode s attr) := by
      simp [createContents, hk]
    rw [hcc]
    exact inv_new_node_orphan s _ attr attr.ino rfl rfl rfl hk rfl hfresh h

/-- `remove_dir` preserves the invariant for non-reserved names. -/
theorem inv_removeDir (s : St) (parent : Nat) (name : String) (now : Nat)
    (h : Inv s) (hreg : regName name) :
    Inv (removeDir s parent name now).2 := by
  unfold removeDir
  split
  · exact h
  split
  · exact h
  rcases hfb : findByName s parent name with e | ov
  · simp only [hfb]; exact h
  rcases ov with _ | attr
  · simp only [hfb]; exact h
  · simp only [hfb]
    obtain ⟨hattr, hni⟩ := findByName_ok_some s parent name attr h hreg hfb
    by_cases hdk : attr.kind ≠ FType.directory
    · rw [if_pos hdk]; exact h
    · rw [if_neg hdk]
      rcases hc : s.contents attr.ino with _ | co
      · simp only [hc]; exact h
      rcases co with fid | des
      · simp only [hc]; exact h
      · simp only [hc]
        by_cases hcnt : 2 < (des.take 3).length
        · rw [if_pos hcnt]; exact h
        · rw [if_neg hcnt]
          simp only [hattr]
          have h2 : Inv { s with inodes := upd s.inodes attr.ino none, contents := upd s.contents attr.ino none } := inv_delete_node s attr.ino h
          rcases hrm : removeDirectoryEntry { s with inodes := upd s.inodes attr.ino none, contents := upd s.contents attr.ino none } parent name with e | s3
          · simp only [hrm]; exact h2
          · simp only [hrm]
            have h3 : Inv s3 := inv_erase _ s3 parent name hreg.1 hreg.2.1 hrm h2
            rcases hpi : s3.inodes parent with _ | pa
            · simp only [hpi]; exact h3
            · simp only [hpi]
              exact inv_writeInode s3 _ pa (by rw [show ({ pa with mtime := now, ctime := now } : FileAttr).ino = pa.ino from rfl, h3.inoKey parent pa hpi]; exact hpi) rfl h3

/-- `remove_file` preserves the invariant for non-reserved names. -/
theorem inv_removeFile (s : St) (parent : Nat) (name : String) (now : Nat)
    (h : Inv s) (hreg : regName name) :
    Inv (removeFile s parent name now).2 := by
  unfold removeFile
  split
  · exact h
  split
  · exact h
  rcases hfb : findByName s parent name with e | ov
  · simp only [hfb]; exact h
  rcases ov with _ | attr
  · simp only [hfb]; exact h
  · simp only [hfb]
    obtain ⟨hattr, hni⟩ := findByName_ok_some s parent name attr h hreg hfb
    by_cases hdk : attr.kind ≠ FType.regularFile
    · rw [if_pos hdk]; exact h
    · rw [if_neg hdk]
      obtain ⟨fid, hfid⟩ := h.fileKind attr.ino attr hattr (not_not.mp hdk)
      simp only [hattr]
      simp only [hfid]
      have h2 : Inv { s with inodes := upd s.inodes attr.ino none, contents := upd s.contents attr.ino none } := inv_delete_node s attr.ino h
      rcases hrm : removeDirectoryEntry { s with inodes := upd s.inodes attr.ino none, contents := upd s.contents attr.ino none } parent name with e | s3
      · simp only [hrm]; exact h2
      · simp only [hrm]
        have h3 : Inv s3 := inv_erase _ s3 parent name hreg.1 hreg.2.1 hrm h2
        rcases hpi : s3.inodes parent with _ | pa
        · simp only [hpi]; exact h3
        · simp only [hpi]
          exact inv_writeInode s3 _ pa (by rw [show ({ pa with mtime := now, ctime := now } : FileAttr).ino = pa.ino from rfl, h3.inoKey parent pa hpi]; exact hpi) rfl h3

/-- `rename` preserves the invariant for non-reserved source and destination
names. -/
theorem inv_rename (s : St) (parent : Nat) (name : String) (newParent : Nat)
    (newName : String) (now : Nat)
    (h : Inv s) (hreg : regName name) (hregN : regName newName) :
    Inv (rename s parent name newParent newName now).2 := by
  unfold rename
  split
  · exact h
  split
  · exact h
  split
  · exact h
  split
  · exact h
  split
  · exact h
  split
  · exact h
  rcases hdc : renameDestCheck s newParent newName with e | u
  · simp only [hdc]; exact h
  · simp only [hdc]
    rcases hfb : findByName s parent name with e | ov
    · simp only [hfb]; exact h
    rcases ov with _ | attr
    · simp only [hfb]; exact h
    · simp only [hfb]
      obtain ⟨hattr, hni⟩ := findByName_ok_some s parent name attr h hreg hfb
      rcases hrm : removeDirectoryEntry s parent name with e | s1
      · simp only [hrm]; exact h
      · simp only [hrm]
        have h1 : Inv s1 := inv_erase s s1 parent name hreg.1 hreg.2.1 hrm h
        rcases hins : insertDirectoryEntry s1 newParent newName (attr.ino, attr.kind) with e | s2
        · simp only [hins]; exact h1
        · simp only [hins]
          have h2 : Inv s2 := inv_insert s1 s2 newParent newName (attr.ino, attr.kind)
            hregN.1 hregN.2.1 hregN.2.2.1 hregN.2.2.2 hni hins h1
          rcases hp1 : s2.inodes parent with _ | pa
          · rcases hp2 : s2.inodes newParent with _ | pb
            · simp only [hp1, hp2]; exact h2
            · simp only [hp1, hp2]; exact h2
          · rcases hp2 : s2.inodes newParent with _ | pb
            · simp only [hp1, hp2]; exact h2
            · simp only [hp1, hp2]
              by_cases hdk : attr.kind = FType.directory
              · rw [if_pos hdk]
                rcases hins2 : insertDirectoryEntry s2 attr.ino "$.." (newParent, .directory) with e | s3
                · simp only [hins2]; exact h2
                · simp only [hins2]
                  exact inv_insert_dotdot s2 s3 attr.ino newParent hni hins2 h2
              · rw [if_neg hdk]
                exact h2

/-- `create_nod` preserves the invariant when the drawn inode number is
fresh and non-root and the name is non-reserved. -/
theorem inv_createNod (s : St) (parent : Nat) (name : String) (attr0 : FileAttr)
    (rd wr : Bool) (newIno now : Nat)
    (h : Inv s) (hreg : regName name) (hfresh : s.inodes newIno = none)
    (hn1 : newIno ≠ 1) :
    Inv (createNod s parent name attr0 rd wr newIno now).2 := by
  unfold createNod
  split
  · exact h
  rcases hfb : findByName s parent name with e | ov
  · simp only [hfb]; exact h
  rcases ov with _ | a0
  · simp only [hfb]
    have hcc2 := createContents_cases s { attr0 with ino := newIno } parent h
      (show s.inodes ({ attr0 with ino := newIno } : FileAttr).ino = none from hfresh)
      (show ({ attr0 with ino := newIno } : FileAttr).ino ≠ 1 from hn1)
    rcases hcc : createContents (writeInode s { attr0 with ino := newIno }) { attr0 with ino := newIno } parent with ⟨r2, s2⟩
    rw [hcc] at hcc2
    rcases r2 with e | u
    · exact hcc2
    · rcases hins : insertDirectoryEntry s2 parent name (({ attr0 with ino := newIno } : FileAttr).ino, ({ attr0 with ino := newIno } : FileAttr).kind) with e | s3
      · simp only [hins]; exact hcc2
      · simp only [hins]
        have h3 : Inv s3 := inv_insert s2 s3 parent name _
          hreg.1 hreg.2.1 hreg.2.2.1 hreg.2.2.2 hn1 hins hcc2
        rcases hpi : s3.inodes parent with _ | pa
        · simp only [hpi]; exact h3
        · simp only [hpi]
          have h4 : Inv (writeInode s3 { pa with mtime := now, ctime := now }) :=
            inv_writeInode s3 _ pa (by rw [show ({ pa with mtime := now, ctime := now } : FileAttr).ino = pa.ino from rfl, h3.inoKey parent pa hpi]; exact hpi) rfl h3
          obtain ⟨f1, f2, f3⟩ := fsOpen_fields (writeInode s3 { pa with mtime := now, ctime := now }) ({ attr0 with ino := newIno } : FileAttr).ino rd wr
          by_cases hif : ({ attr0 with ino := newIno } : FileAttr).kind = FType.regularFile ∧ (rd = true ∨ wr = true)
          · rw [if_pos hif]
            rcases hfo : fsOpen (writeInode s3 { pa with mtime := now, ctime := now }) ({ attr0 with ino := newIno } : FileAttr).ino rd wr with ⟨r5, s5⟩
            rw [hfo] at f1 f2 f3
            rcases r5 with e | hnum
            · exact inv_fields _ _ f1 f2 f3 h4
            · exact inv_fields _ _ f1 f2 f3 h4
          · rw [if_neg hif]
            exact h4
  · simp only [hfb]; exact h

/-- Counterexample to the claim's root clause: right after engine
construction the root's content directory holds only the `$.` entry —
`ensure_root_exists` never writes the claimed `$..` self-entry. -/
theorem c4_root_missing_dotdot_counterexample :
    (initState 0).contents 1 = some (.dir [("$.", (1, .directory))]) ∧
    lookupE [("$.", (1, .directory))] "$.." = none := by
  constructor
  · rfl
  · simp [lookupE]

/-- C4 (amended): the directory-skeleton invariant — every live directory
inode has a `$.` entry pointing to itself and, except for the root (which
`ensure_root_exists` leaves without any `$..` entry), a `$..` entry pointing
to its recorded parent — holds after engine construction and is preserved by
`create_nod`, `rename`, `remove_dir` and `remove_file`, for caller names
that avoid the reserved `$.`/`$..` and synthetic `.`/`..` forms and for
fresh non-root generated inode numbers. -/
theorem c4_skeleton_invariant :
    (∀ now, Inv (initState now)) ∧
    (∀ s parent name attr0 rd wr newIno now, Inv s → regName name →
      s.inodes newIno = none → newIno ≠ 1 →
      Inv (createNod s parent name attr0 rd wr newIno now).2) ∧
    (∀ s parent name newParent newName now, Inv s → regName name → regName newName →
      Inv (rename s parent name newParent newName now).2) ∧
    (∀ s parent name now, Inv s → regName name → Inv (removeDir s parent name now).2) ∧
    (∀ s parent name now, Inv s → regName name → Inv (removeFile s parent name now).2) :=
  ⟨inv_initState,
   fun s parent name attr0 rd wr newIno now h hr hf hn =>
     inv_createNod s parent name attr0 rd wr newIno now h hr hf hn,
   fun s parent name np nn now h hr hrn => inv_rename s parent name np nn now h hr hrn,
   fun s parent name now h hr => inv_removeDir s parent name now h hr,
   fun s parent name now h hr => inv_removeFile s parent name now h hr⟩

/-- Witness for C4: the construction clause instantiated at clock 0 feeds the
`remove_dir` preservation clause at a concrete non-reserved name. -/
theorem c4_skeleton_invariant_witness :
    Inv (removeDir (initState 0) 1 "d" 3).2 :=
  c4_skeleton_invariant.2.2.2.1 (initState 0) 1 "d" 3
    (c4_skeleton_invariant.1 0)
    ⟨by decide, by decide, by decide, by decide⟩

end EncFs
